import Mathlib

/-!
Verification of the watch registry, event codec, stream reader and
formatter of libinotifytools (src/libinotifytools/src/inotifytools.c),
as a shallow embedding.

Conventions of the embedding:
* C strings are modelled as List Char; a NULL char pointer is modelled
  by Option (none = NULL).  strcmp order on NUL-free strings is the
  lexicographic order on List Char.
* The two rbtree indices (tree_wd, tree_filename) are repository code
  that is not part of the sources given here; following the design
  notes they are modelled as ordered-map abstractions: lists of node
  ids kept sorted by the key read, at comparison time, from the shared
  watch record (exactly as the C trees store pointers to shared watch
  structs and compare through wd_compare / filename_compare).  Lookup,
  insert and delete navigate by comparison and stop early, as a search
  in an ordered structure does; rbsearch inserts only when no equal key
  is present, returning the already-present node otherwise, and
  rbdelete removes the node whose key compares equal.
* Watch records live in a heap: an association list from node id to the
  record, so that in-place mutation of a record (as the C code does to
  the filename field) is visible to both indices without reindexing.
-/

/-- Turn a string literal into the List Char model of a C string. -/
def s2l (s : String) : List Char := s.data

section SortedIndex

variable {K : Type} [LinearOrder K]

/-- Search of an ordered index keyed by the current value of
key (models rbfind with wd_compare / filename_compare): walk keys in
ascending order, stop as soon as the stored key exceeds the target. -/
def findS (key : Nat → K) (k : K) : List Nat → Option Nat
  | [] => none
  | i :: is =>
    if k < key i then none
    else if k = key i then some i
    else findS key k is

/-- Ordered insert (models rbsearch): place the node before the first
strictly larger key; if an equal key is already present the tree is
returned unchanged (rbsearch yields the existing node, no insert). -/
def insertS (key : Nat → K) (i : Nat) : List Nat → List Nat
  | [] => [i]
  | j :: js =>
    if key i < key j then i :: j :: js
    else if key i = key j then j :: js
    else j :: insertS key i js

/-- Ordered delete (models rbdelete): navigate by comparison with the
given key, remove the node that compares equal, stop early otherwise. -/
def deleteS (key : Nat → K) (k : K) : List Nat → List Nat
  | [] => []
  | j :: js =>
    if k < key j then j :: js
    else if k = key j then js
    else j :: deleteS key k js

theorem findS_eq_some {key : Nat → K} {k : K} {l : List Nat} {i : Nat}
    (h : findS key k l = some i) : i ∈ l ∧ key i = k := by
  induction l with
  | nil => simp [findS] at h
  | cons j js ih =>
    by_cases h1 : k < key j
    · simp [findS, h1] at h
    · by_cases h2 : k = key j
      · simp [findS, h1, h2] at h
        subst h
        exact ⟨List.mem_cons_self _ _, h2.symm⟩
      · simp only [findS, if_neg h1, if_neg h2] at h
        rcases ih h with ⟨hm, hk⟩
        exact ⟨List.mem_cons_of_mem _ hm, hk⟩

theorem findS_mem {key : Nat → K} {l : List Nat} {i : Nat}
    (hs : l.Pairwise (fun a b => key a < key b)) (hm : i ∈ l) :
    findS key (key i) l = some i := by
  induction l with
  | nil => cases hm
  | cons j js ih =>
    rcases List.pairwise_cons.mp hs with ⟨hj, hjs⟩
    rcases List.mem_cons.mp hm with h | h
    · subst h
      simp [findS]
    · have hlt : key j < key i := hj i h
      have h1 : ¬ key i < key j := not_lt_of_gt hlt
      have h2 : ¬ key i = key j := fun he => absurd (he ▸ hlt) (lt_irrefl _)
      simp only [findS, if_neg h1, if_neg h2]
      exact ih hjs h

theorem findS_congr {key1 key2 : Nat → K} {k : K} {l : List Nat}
    (h : ∀ j ∈ l, key1 j = key2 j) : findS key1 k l = findS key2 k l := by
  induction l with
  | nil => rfl
  | cons j js ih =>
    have hj := h j (List.mem_cons_self _ _)
    have ih2 := ih (fun x hx => h x (List.mem_cons_of_mem _ hx))
    simp [findS, hj, ih2]

theorem insertS_mem {key : Nat → K} {i : Nat} {l : List Nat}
    (hf : ∀ j ∈ l, key j ≠ key i) :
    ∀ x, x ∈ insertS key i l ↔ x = i ∨ x ∈ l := by
  induction l with
  | nil => intro x; simp [insertS]
  | cons j js ih =>
    intro x
    have hj : key j ≠ key i := hf j (List.mem_cons_self _ _)
    have ih2 := ih (fun y hy => hf y (List.mem_cons_of_mem _ hy))
    by_cases h1 : key i < key j
    · simp only [insertS, if_pos h1]
      simp [List.mem_cons, or_comm, or_assoc, or_left_comm]
    · have h2 : ¬ key i = key j := fun he => hj he.symm
      simp only [insertS, if_neg h1, if_neg h2]
      simp only [List.mem_cons, ih2]
      tauto

theorem insertS_sorted {key : Nat → K} {i : Nat} {l : List Nat}
    (hs : l.Pairwise (fun a b => key a < key b))
    (hf : ∀ j ∈ l, key j ≠ key i) :
    (insertS key i l).Pairwise (fun a b => key a < key b) := by
  induction l with
  | nil => simp [insertS]
  | cons j js ih =>
    rcases List.pairwise_cons.mp hs with ⟨hj, hjs⟩
    have hjne : key j ≠ key i := hf j (List.mem_cons_self _ _)
    have hfr : ∀ y ∈ js, key y ≠ key i := fun y hy => hf y (List.mem_cons_of_mem _ hy)
    by_cases h1 : key i < key j
    · simp only [insertS, if_pos h1]
      refine List.pairwise_cons.mpr ⟨?_, hs⟩
      intro b hb
      rcases List.mem_cons.mp hb with h | h
      · exact h ▸ h1
      · exact lt_trans h1 (hj b h)
    · have h2 : ¬ key i = key j := fun he => hjne he.symm
      simp only [insertS, if_neg h1, if_neg h2]
      refine List.pairwise_cons.mpr ⟨?_, ih hjs hfr⟩
      intro b hb
      rcases (insertS_mem hfr b).mp hb with h | h
      · subst h
        exact lt_of_le_of_ne (not_lt.mp h1) (Ne.symm h2)
      · exact hj b h

theorem insertS_eq_of_mem {key : Nat → K} {i : Nat} {l : List Nat}
    (hs : l.Pairwise (fun a b => key a < key b))
    (he : ∃ j ∈ l, key j = key i) : insertS key i l = l := by
  induction l with
  | nil => rcases he with ⟨j, hj, _⟩; cases hj
  | cons j js ih =>
    rcases List.pairwise_cons.mp hs with ⟨hj, hjs⟩
    rcases he with ⟨x, hx, hkx⟩
    rcases List.mem_cons.mp hx with h | h
    · subst h
      have h1 : ¬ key i < key x := by rw [← hkx]; exact lt_irrefl _
      have h2 : key i = key x := hkx.symm
      simp [insertS, h1, h2]
    · have hlt : key j < key i := hkx ▸ hj x h
      have h1 : ¬ key i < key j := not_lt_of_gt hlt
      have h2 : ¬ key i = key j := fun hee => absurd (hee ▸ hlt) (lt_irrefl _)
      simp only [insertS, if_neg h1, if_neg h2]
      rw [ih hjs ⟨x, h, hkx⟩]

theorem deleteS_sublist (key : Nat → K) (k : K) (l : List Nat) :
    (deleteS key k l).Sublist l := by
  induction l with
  | nil => simp [deleteS]
  | cons j js ih =>
    by_cases h1 : k < key j
    · simp [deleteS, h1]
    · by_cases h2 : k = key j
      · simp only [deleteS, if_neg h1, if_pos h2]
        exact List.sublist_cons_self _ _
      · simp only [deleteS, if_neg h1, if_neg h2]
        exact ih.cons₂ _

theorem deleteS_sorted {key : Nat → K} {k : K} {l : List Nat}
    (hs : l.Pairwise (fun a b => key a < key b)) :
    (deleteS key k l).Pairwise (fun a b => key a < key b) :=
  hs.sublist (deleteS_sublist key k l)

theorem deleteS_mem (key : Nat → K) {i : Nat} {l : List Nat}
    (hs : l.Pairwise (fun a b => key a < key b)) (hm : i ∈ l) :
    ∀ x, x ∈ deleteS key (key i) l ↔ x ∈ l ∧ x ≠ i := by
  induction l with
  | nil => cases hm
  | cons j js ih =>
    intro x
    rcases List.pairwise_cons.mp hs with ⟨hj, hjs⟩
    rcases List.mem_cons.mp hm with h | h
    · subst h
      have h1 : ¬ key i < key i := lt_irrefl _
      simp only [deleteS, if_neg h1, if_pos rfl]
      constructor
      · intro hx
        refine ⟨List.mem_cons_of_mem _ hx, ?_⟩
        intro he
        subst he
        exact absurd (hj x hx) (lt_irrefl _)
      · intro ⟨hx, hne⟩
        rcases List.mem_cons.mp hx with h | h
        · exact absurd h hne
        · exact h
    · have hlt : key j < key i := hj i h
      have h1 : ¬ key i < key j := not_lt_of_gt hlt
      have h2 : ¬ key i = key j := fun he => absurd (he ▸ hlt) (lt_irrefl _)
      simp only [deleteS, if_neg h1, if_neg h2]
      have hne : x ∈ j :: js → j ≠ i := by
        intro _ he
        subst he
        exact absurd hlt (lt_irrefl _)
      constructor
      · intro hx
        rcases List.mem_cons.mp hx with hh | hh
        · subst hh
          exact ⟨List.mem_cons_self _ _, fun he => absurd (he ▸ hlt) (lt_irrefl _)⟩
        · rcases (ih hjs h x).mp hh with ⟨hm2, hne2⟩
          exact ⟨List.mem_cons_of_mem _ hm2, hne2⟩
      · intro ⟨hx, hne2⟩
        rcases List.mem_cons.mp hx with hh | hh
        · exact hh ▸ List.mem_cons_self _ _
        · exact List.mem_cons_of_mem _ ((ih hjs h x).mpr ⟨hh, hne2⟩)

theorem insertS_congr {key1 key2 : Nat → K} {i : Nat} {l : List Nat}
    (h : ∀ j ∈ l, key1 j = key2 j) (hi : key1 i = key2 i) :
    insertS key1 i l = insertS key2 i l := by
  induction l with
  | nil => rfl
  | cons j js ih =>
    have hj := h j (List.mem_cons_self _ _)
    have ih2 := ih (fun x hx => h x (List.mem_cons_of_mem _ hx))
    simp [insertS, hj, hi, ih2]

theorem deleteS_congr {key1 key2 : Nat → K} {k : K} {l : List Nat}
    (h : ∀ j ∈ l, key1 j = key2 j) :
    deleteS key1 k l = deleteS key2 k l := by
  induction l with
  | nil => rfl
  | cons j js ih =>
    have hj := h j (List.mem_cons_self _ _)
    have ih2 := ih (fun x hx => h x (List.mem_cons_of_mem _ hx))
    simp [deleteS, hj, ih2]

theorem pairwise_congr {key1 key2 : Nat → K} {l : List Nat}
    (h : ∀ j ∈ l, key1 j = key2 j)
    (hs : l.Pairwise (fun a b => key1 a < key1 b)) :
    l.Pairwise (fun a b => key2 a < key2 b) := by
  refine hs.imp_of_mem ?_
  intro a b ha hb hlt
  rw [← h a ha, ← h b hb]
  exact hlt

end SortedIndex

/-!
## Watch registry (inotifytools.c)

A watch record mirrors the C struct `watch`: descriptor, filename and
the fourteen statistics counters used by record_stats / stat_ptr.
-/

structure watch where
  wd : Int
  filename : List Char
  hit_access : Nat := 0
  hit_modify : Nat := 0
  hit_attrib : Nat := 0
  hit_close_nowrite : Nat := 0
  hit_close_write : Nat := 0
  hit_open : Nat := 0
  hit_move_self : Nat := 0
  hit_moved_from : Nat := 0
  hit_moved_to : Nat := 0
  hit_create : Nat := 0
  hit_delete : Nat := 0
  hit_delete_self : Nat := 0
  hit_unmount : Nat := 0
  hit_total : Nat := 0
deriving DecidableEq

/-- Process-wide state of the library: the watch heap, the two ordered
indices (as id lists sorted by the current key of each node), the id
allocator, the last error, and the statistics globals. -/
structure InoState where
  heap : List (Nat × watch)
  tree_wd : List Nat
  tree_filename : List Nat
  next_id : Nat
  error : Int
  collect_stats : Bool
  num_access : Nat := 0
  num_modify : Nat := 0
  num_attrib : Nat := 0
  num_close_nowrite : Nat := 0
  num_close_write : Nat := 0
  num_open : Nat := 0
  num_move_self : Nat := 0
  num_moved_from : Nat := 0
  num_moved_to : Nat := 0
  num_create : Nat := 0
  num_delete : Nat := 0
  num_delete_self : Nat := 0
  num_unmount : Nat := 0
  num_total : Nat := 0
deriving DecidableEq

/-- State right after a successful inotifytools_initialize(). -/
def initialState : InoState :=
  { heap := [], tree_wd := [], tree_filename := [], next_id := 0,
    error := 0, collect_stats := false }

def heapFind (h : List (Nat × watch)) (i : Nat) : Option watch :=
  (h.find? (fun p => p.1 == i)).map (fun p => p.2)

/-- Current wd key of a node, read through the heap (wd_compare). -/
def wdOf (h : List (Nat × watch)) (i : Nat) : Int :=
  ((heapFind h i).map (fun w => w.wd)).getD 0

/-- Current filename key of a node, read through the heap
(filename_compare / strcmp). -/
def fnOf (h : List (Nat × watch)) (i : Nat) : List Char :=
  ((heapFind h i).map (fun w => w.filename)).getD []

/-- watch_from_wd: rbfind on tree_wd. -/
def watch_from_wd (st : InoState) (wd : Int) : Option Nat :=
  findS (wdOf st.heap) wd st.tree_wd

/-- watch_from_filename: rbfind on tree_filename. -/
def watch_from_filename (st : InoState) (fn : List Char) : Option Nat :=
  findS (fnOf st.heap) fn st.tree_filename

/-- create_watch(wd, filename): rejects wd <= 0 and a NULL filename
pointer (the C check is `wd <= 0 || !filename`), then allocates a
record and inserts it into both indices with rbsearch. -/
def create_watch (st : InoState) (wd : Int) (filename : Option (List Char)) :
    InoState :=
  match filename with
  | none => st
  | some f =>
    if wd ≤ 0 then st
    else
      let i := st.next_id
      let heap2 := (i, ({ wd := wd, filename := f } : watch)) :: st.heap
      { st with
        heap := heap2,
        tree_wd := insertS (wdOf heap2) i st.tree_wd,
        tree_filename := insertS (fnOf heap2) i st.tree_filename,
        next_id := i + 1 }

/-- Shared erase path of the two removal functions: rbdelete from both
indices (navigating by the stillunmodified keys of the node), then
destroy_watch frees the record. -/
def eraseWatch (st : InoState) (i : Nat) : InoState :=
  { st with
    error := 0,
    tree_wd := deleteS (wdOf st.heap) (wdOf st.heap i) st.tree_wd,
    tree_filename := deleteS (fnOf st.heap) (fnOf st.heap i) st.tree_filename,
    heap := st.heap.filter (fun p => p.1 ≠ i) }

/-- inotifytools_remove_watch_by_wd.  externOk is the outcome of the
external inotify_rm_watch call; on failure remove_inotify_watch stores
the (negative) status in error and the function returns 0 with the
registry untouched.  An unknown wd returns 1 without touching anything. -/
def inotifytools_remove_watch_by_wd (st : InoState) (wd : Int)
    (externOk : Bool) : InoState × Int :=
  match watch_from_wd st wd with
  | none => (st, 1)
  | some i =>
    if externOk then (eraseWatch st i, 1)
    else ({ st with error := -1 }, 0)

/-- inotifytools_remove_watch_by_filename: same body, looked up through
the path index. -/
def inotifytools_remove_watch_by_filename (st : InoState) (fn : List Char)
    (externOk : Bool) : InoState × Int :=
  match watch_from_filename st fn with
  | none => (st, 1)
  | some i =>
    if externOk then (eraseWatch st i, 1)
    else ({ st with error := -1 }, 0)

def heapUpdate (h : List (Nat × watch)) (i : Nat) (f : watch → watch) :
    List (Nat × watch) :=
  h.map (fun p => if p.1 = i then (p.1, f p.2) else p)

/-- inotifytools_set_filename_by_wd: finds the watch through the wd
index and overwrites the filename field in place (free + strdup); the
path index is not told about the key change. -/
def inotifytools_set_filename_by_wd (st : InoState) (wd : Int)
    (filename : List Char) : InoState :=
  match watch_from_wd st wd with
  | none => st
  | some i =>
    { st with heap := heapUpdate st.heap i (fun w => { w with filename := filename }) }

/-- inotifytools_set_filename_by_filename: same in-place overwrite,
located through the path index. -/
def inotifytools_set_filename_by_filename (st : InoState) (oldname newname : List Char) :
    InoState :=
  match watch_from_filename st oldname with
  | none => st
  | some i =>
    { st with heap := heapUpdate st.heap i (fun w => { w with filename := newname }) }

/-- strncmp(old, s, strlen(old)) == 0 for NUL-free strings: old is a
leading piece of s. -/
def startsWith : List Char → List Char → Bool
  | [], _ => true
  | _ :: _, [] => false
  | a :: as, b :: bs => a == b && startsWith as bs

/-- The per-node callback replace_filename (inotifytools.c:420).
When the watch filename begins with old_name it builds
new_name ++ (filename after old_len); if the current filename equals
new_name the node is skipped, otherwise the node is rbdeleted from the
path index, the filename field replaced, and the node rbsearched back
in under its new key (which silently keeps it out of the index when a
different node already holds an equal key). -/
def replace_filename_node (oldname newname : List Char) (st : InoState)
    (i : Nat) : InoState :=
  match heapFind st.heap i with
  | none => st
  | some w =>
    if startsWith oldname w.filename then
      let name := newname ++ w.filename.drop oldname.length
      if w.filename = newname then st
      else
        let t := deleteS (fnOf st.heap) w.filename st.tree_filename
        let heap2 := heapUpdate st.heap i (fun w => { w with filename := name })
        { st with heap := heap2, tree_filename := insertS (fnOf heap2) i t }
    else st

/-- inotifytools_replace_filename: rbwalk of the path index applying
replace_filename to every node.  Modelled from the spec: the walk
visits the watches in path order over a snapshot of the index (the C
code mutates the rbtree from inside rbwalk; the rbtree implementation
itself is not part of these sources). -/
def inotifytools_replace_filename (st : InoState) (oldname newname : Option (List Char)) :
    InoState :=
  match oldname, newname with
  | some o, some n => st.tree_filename.foldl (replace_filename_node o n) st
  | _, _ => st

/-!
## Heap lemmas
-/

def liveIds (st : InoState) : List Nat := st.heap.map (fun p => p.1)

theorem heapFind_cons (p : Nat × watch) (h : List (Nat × watch)) (j : Nat) :
    heapFind (p :: h) j = if p.1 = j then some p.2 else heapFind h j := by
  unfold heapFind
  by_cases he : p.1 = j
  · rw [List.find?_cons_of_pos _ (by simp [he]), if_pos he]
    rfl
  · rw [List.find?_cons_of_neg _ (by simp [he]), if_neg he]

theorem heapFind_cons_self (h : List (Nat × watch)) (i : Nat) (w : watch) :
    heapFind ((i, w) :: h) i = some w := by
  rw [heapFind_cons]
  simp

theorem heapFind_cons_ne (h : List (Nat × watch)) {i j : Nat} (w : watch)
    (hne : j ≠ i) : heapFind ((i, w) :: h) j = heapFind h j := by
  rw [heapFind_cons]
  exact if_neg (fun he => hne he.symm)

theorem heapFind_mem {h : List (Nat × watch)} {i : Nat} {w : watch}
    (hf : heapFind h i = some w) : (i, w) ∈ h := by
  unfold heapFind at hf
  rcases Option.map_eq_some'.mp hf with ⟨p, hfind, hw⟩
  have hp := List.find?_some hfind
  have hmem := List.mem_of_find?_eq_some hfind
  have h1 : p.1 = i := by simpa using hp
  have : p = (i, w) := by
    cases p
    simp only at h1 hw
    simp [h1, hw]
  exact this ▸ hmem

theorem heapFind_isSome_of_mem {h : List (Nat × watch)} {i : Nat}
    (hm : i ∈ h.map (fun p => p.1)) : ∃ w, heapFind h i = some w := by
  induction h with
  | nil => simp at hm
  | cons p h ih =>
    rw [heapFind_cons]
    by_cases he : p.1 = i
    · exact ⟨p.2, if_pos he⟩
    · have : i ∈ h.map (fun p => p.1) := by
        rcases List.mem_cons.mp hm with hh | hh
        · exact absurd hh.symm he
        · exact hh
      rcases ih this with ⟨w, hw⟩
      exact ⟨w, by rw [if_neg he]; exact hw⟩

theorem heapFind_filter_ne {h : List (Nat × watch)} {i j : Nat} (hne : j ≠ i) :
    heapFind (h.filter (fun p => p.1 ≠ i)) j = heapFind h j := by
  induction h with
  | nil => rfl
  | cons p h ih =>
    rw [List.filter_cons]
    by_cases he : p.1 = i
    · rw [if_neg (by simp [he]), ih, heapFind_cons,
        if_neg (fun hj : p.1 = j => hne (hj ▸ he))]
    · rw [if_pos (by simp [he]), heapFind_cons, heapFind_cons]
      by_cases hj : p.1 = j
      · rw [if_pos hj, if_pos hj]
      · rw [if_neg hj, if_neg hj, ih]

theorem heapFind_filter_self (h : List (Nat × watch)) (i : Nat) :
    heapFind (h.filter (fun p => p.1 ≠ i)) i = none := by
  unfold heapFind
  rw [Option.map_eq_none']
  rw [List.find?_eq_none]
  intro p hp
  have := (List.mem_filter.mp hp).2
  simp only [decide_not, Bool.not_eq_true', decide_eq_false_iff_not] at this
  simp [this]

theorem heapUpdate_cons (p : Nat × watch) (h : List (Nat × watch)) (i : Nat)
    (f : watch → watch) :
    heapUpdate (p :: h) i f =
      (if p.1 = i then (p.1, f p.2) else p) :: heapUpdate h i f := by
  rfl

theorem heapFind_update_self (h : List (Nat × watch)) (i : Nat) (f : watch → watch) :
    heapFind (heapUpdate h i f) i = (heapFind h i).map f := by
  induction h with
  | nil => rfl
  | cons p h ih =>
    rw [heapUpdate_cons, heapFind_cons, heapFind_cons]
    by_cases he : p.1 = i
    · rw [if_pos he]
      simp [he]
    · rw [if_neg he]
      simp only [he, if_false, if_neg he]
      exact ih

theorem heapFind_update_ne {h : List (Nat × watch)} {i j : Nat}
    (f : watch → watch) (hne : j ≠ i) :
    heapFind (heapUpdate h i f) j = heapFind h j := by
  induction h with
  | nil => rfl
  | cons p h ih =>
    rw [heapUpdate_cons, heapFind_cons, heapFind_cons]
    by_cases he : p.1 = i
    · rw [if_pos he]
      simp only
      rw [if_neg (fun hj : p.1 = j => hne (hj ▸ he)),
        if_neg (fun hj : p.1 = j => hne (hj ▸ he)), ih]
    · rw [if_neg he]
      by_cases hj : p.1 = j
      · rw [if_pos hj, if_pos hj]
      · rw [if_neg hj, if_neg hj, ih]

theorem map_fst_update (h : List (Nat × watch)) (i : Nat) (f : watch → watch) :
    (heapUpdate h i f).map (fun p => p.1) = h.map (fun p => p.1) := by
  induction h with
  | nil => rfl
  | cons p h ih =>
    rw [heapUpdate_cons, List.map_cons, List.map_cons, ih]
    by_cases he : p.1 = i
    · rw [if_pos he]
    · rw [if_neg he]

theorem map_fst_filter (h : List (Nat × watch)) (i : Nat) :
    (h.filter (fun p => p.1 ≠ i)).map (fun p => p.1) =
      (h.map (fun p => p.1)).filter (fun j => j ≠ i) := by
  induction h with
  | nil => rfl
  | cons p h ih =>
    rw [List.filter_cons, List.map_cons, List.filter_cons]
    by_cases he : p.1 = i
    · rw [if_neg (by simp [he]), if_neg (by simp [he]), ih]
    · rw [if_pos (by simp [he]), if_pos (by simp [he]), List.map_cons, ih]


/-!
## The registry invariant (claim C1)
-/

/-- The dual-index consistency invariant: both indices hold exactly the
set of live node ids, each once, in strictly ascending key order, and
every live id is below the allocator. -/
def RegInv (st : InoState) : Prop :=
  (liveIds st).Nodup
  ∧ (∀ i ∈ st.tree_wd, i ∈ liveIds st)
  ∧ (∀ i ∈ liveIds st, i ∈ st.tree_wd)
  ∧ (∀ i ∈ st.tree_filename, i ∈ liveIds st)
  ∧ (∀ i ∈ liveIds st, i ∈ st.tree_filename)
  ∧ st.tree_wd.Pairwise (fun a b => wdOf st.heap a < wdOf st.heap b)
  ∧ st.tree_filename.Pairwise (fun a b => fnOf st.heap a < fnOf st.heap b)
  ∧ (∀ i ∈ liveIds st, i < st.next_id)

/-- Every live watch can be found again through both indices under its
current descriptor and its current path. -/
def Locatable (st : InoState) : Prop :=
  ∀ i w, heapFind st.heap i = some w →
    watch_from_wd st w.wd = some i ∧ watch_from_filename st w.filename = some i

theorem inv_locatable {st : InoState} (hI : RegInv st) : Locatable st := by
  obtain ⟨_, _, hwd2, _, hfn2, hwds, hfns, _⟩ := hI
  intro i w hf
  have hm : i ∈ liveIds st := by
    have := heapFind_mem hf
    exact List.mem_map.mpr ⟨(i, w), this, rfl⟩
  have hwk : wdOf st.heap i = w.wd := by simp [wdOf, hf]
  have hfk : fnOf st.heap i = w.filename := by simp [fnOf, hf]
  constructor
  · have := findS_mem hwds (hwd2 i hm)
    rw [hwk] at this
    exact this
  · have := findS_mem hfns (hfn2 i hm)
    rw [hfk] at this
    exact this

theorem create_watch_preserves {st : InoState} (wd : Int) (fn : Option (List Char))
    (hI : RegInv st)
    (hfresh : ∀ f, fn = some f → 0 < wd →
      ∀ p ∈ st.heap, p.2.wd ≠ wd ∧ p.2.filename ≠ f) :
    RegInv (create_watch st wd fn) := by
  match fn with
  | none => exact hI
  | some f =>
    by_cases hwd : wd ≤ 0
    · simpa [create_watch, hwd] using hI
    · have hpos : 0 < wd := lt_of_not_ge hwd
      obtain ⟨hnd, hwd1, hwd2, hfn1, hfn2, hwds, hfns, hnext⟩ := hI
      have hfr := hfresh f rfl hpos
      simp only [create_watch, if_neg hwd]
      set i := st.next_id with hidef
      set heap2 := (i, ({ wd := wd, filename := f } : watch)) :: st.heap with hh2
      have hinotin : i ∉ liveIds st := fun hmem => absurd (hnext i hmem) (lt_irrefl _)
      have hne_of_live : ∀ j ∈ liveIds st, j ≠ i :=
        fun j hj he => hinotin (he ▸ hj)
      have hwd_congr : ∀ j ∈ st.tree_wd, wdOf st.heap j = wdOf heap2 j := by
        intro j hj
        rw [hh2, wdOf, wdOf, heapFind_cons_ne _ _ (hne_of_live j (hwd1 j hj))]
      have hfn_congr : ∀ j ∈ st.tree_filename, fnOf st.heap j = fnOf heap2 j := by
        intro j hj
        rw [hh2, fnOf, fnOf, heapFind_cons_ne _ _ (hne_of_live j (hfn1 j hj))]
      have hwdi : wdOf heap2 i = wd := by
        rw [hh2, wdOf, heapFind_cons_self]
        rfl
      have hfni : fnOf heap2 i = f := by
        rw [hh2, fnOf, heapFind_cons_self]
        rfl
      have hwd_freshk : ∀ j ∈ st.tree_wd, wdOf heap2 j ≠ wdOf heap2 i := by
        intro j hj
        rw [← hwd_congr j hj, hwdi]
        rcases heapFind_isSome_of_mem (hwd1 j hj) with ⟨w, hw⟩
        rw [wdOf, hw]
        exact (hfr _ (heapFind_mem hw)).1
      have hfn_freshk : ∀ j ∈ st.tree_filename, fnOf heap2 j ≠ fnOf heap2 i := by
        intro j hj
        rw [← hfn_congr j hj, hfni]
        rcases heapFind_isSome_of_mem (hfn1 j hj) with ⟨w, hw⟩
        rw [fnOf, hw]
        exact (hfr _ (heapFind_mem hw)).2
      have hlive2 : ∀ x, x ∈ liveIds ({ st with heap := heap2, tree_wd := insertS (wdOf heap2) i st.tree_wd, tree_filename := insertS (fnOf heap2) i st.tree_filename, next_id := i + 1 } : InoState) ↔ x = i ∨ x ∈ liveIds st := by
        intro x
        simp [liveIds, hh2]
      refine ⟨?_, ?_, ?_, ?_, ?_, ?_, ?_, ?_⟩
      · simp only [liveIds, hh2, List.map_cons]
        exact List.nodup_cons.mpr ⟨hinotin, hnd⟩
      · intro x hx
        rcases (insertS_mem hwd_freshk x).mp hx with h | h
        · exact (hlive2 x).mpr (Or.inl h)
        · exact (hlive2 x).mpr (Or.inr (hwd1 x h))
      · intro x hx
        rcases (hlive2 x).mp hx with h | h
        · exact (insertS_mem hwd_freshk x).mpr (Or.inl h)
        · exact (insertS_mem hwd_freshk x).mpr (Or.inr (hwd2 x h))
      · intro x hx
        rcases (insertS_mem hfn_freshk x).mp hx with h | h
        · exact (hlive2 x).mpr (Or.inl h)
        · exact (hlive2 x).mpr (Or.inr (hfn1 x h))
      · intro x hx
        rcases (hlive2 x).mp hx with h | h
        · exact (insertS_mem hfn_freshk x).mpr (Or.inl h)
        · exact (insertS_mem hfn_freshk x).mpr (Or.inr (hfn2 x h))
      · exact insertS_sorted (pairwise_congr hwd_congr hwds) hwd_freshk
      · exact insertS_sorted (pairwise_congr hfn_congr hfns) hfn_freshk
      · intro x hx
        rcases (hlive2 x).mp hx with h | h
        · simp [h]
        · exact Nat.lt_succ_of_lt (hnext x h)

theorem eraseWatch_preserves {st : InoState} {i : Nat} (hI : RegInv st)
    (hm : i ∈ liveIds st) : RegInv (eraseWatch st i) := by
  obtain ⟨hnd, hwd1, hwd2, hfn1, hfn2, hwds, hfns, hnext⟩ := hI
  have hlive2 : ∀ x, x ∈ liveIds (eraseWatch st i) ↔ x ∈ liveIds st ∧ x ≠ i := by
    intro x
    simp only [liveIds, eraseWatch, map_fst_filter, List.mem_filter,
      decide_eq_true_eq]
  have hwdmem := deleteS_mem (wdOf st.heap) hwds (hwd2 i hm)
  have hfnmem := deleteS_mem (fnOf st.heap) hfns (hfn2 i hm)
  have hwd_congr : ∀ j ∈ deleteS (wdOf st.heap) (wdOf st.heap i) st.tree_wd,
      wdOf st.heap j = wdOf (st.heap.filter (fun p => p.1 ≠ i)) j := by
    intro j hj
    have hne := ((hwdmem j).mp hj).2
    rw [wdOf, wdOf, heapFind_filter_ne hne]
  have hfn_congr : ∀ j ∈ deleteS (fnOf st.heap) (fnOf st.heap i) st.tree_filename,
      fnOf st.heap j = fnOf (st.heap.filter (fun p => p.1 ≠ i)) j := by
    intro j hj
    have hne := ((hfnmem j).mp hj).2
    rw [fnOf, fnOf, heapFind_filter_ne hne]
  refine ⟨?_, ?_, ?_, ?_, ?_, ?_, ?_, ?_⟩
  · simp only [liveIds, eraseWatch, map_fst_filter]
    exact hnd.filter _
  · intro x hx
    have := (hwdmem x).mp hx
    exact (hlive2 x).mpr ⟨hwd1 x this.1, this.2⟩
  · intro x hx
    rcases (hlive2 x).mp hx with ⟨h1, h2⟩
    exact (hwdmem x).mpr ⟨hwd2 x h1, h2⟩
  · intro x hx
    have := (hfnmem x).mp hx
    exact (hlive2 x).mpr ⟨hfn1 x this.1, this.2⟩
  · intro x hx
    rcases (hlive2 x).mp hx with ⟨h1, h2⟩
    exact (hfnmem x).mpr ⟨hfn2 x h1, h2⟩
  · exact pairwise_congr hwd_congr (deleteS_sorted hwds)
  · exact pairwise_congr hfn_congr (deleteS_sorted hfns)
  · intro x hx
    exact hnext x ((hlive2 x).mp hx).1

/-!
## Operation sequences for claim C1
-/

/-- One registry operation: watch creation (as performed by
inotifytools_watch_files through create_watch) or removal by
descriptor / by filename (the Bool carries the outcome of the external
inotify_rm_watch call). -/
inductive RegOp where
  | addw (wd : Int) (filename : Option (List Char))
  | rmw (wd : Int) (ok : Bool)
  | rmf (fn : List Char) (ok : Bool)
deriving DecidableEq

def applyOp (st : InoState) : RegOp → InoState
  | .addw wd fn => create_watch st wd fn
  | .rmw wd ok => (inotifytools_remove_watch_by_wd st wd ok).1
  | .rmf fn ok => (inotifytools_remove_watch_by_filename st fn ok).1

/-- Caller obligation stated by the design: a creation that actually
inserts (positive wd, non-NULL path) must not reuse the descriptor or
the path of a live watch (the external facility never reuses a live
descriptor). -/
def legalOp (st : InoState) : RegOp → Bool
  | .addw wd fn =>
    match fn with
    | some f => decide (wd ≤ 0) ||
        st.heap.all (fun p => p.2.wd != wd && p.2.filename != f)
    | none => true
  | .rmw _ _ => true
  | .rmf _ _ => true

def legalOps : InoState → List RegOp → Bool
  | _, [] => true
  | st, op :: ops => legalOp st op && legalOps (applyOp st op) ops

theorem legal_addw {st : InoState} {wd : Int} {fn : Option (List Char)}
    (h : legalOp st (RegOp.addw wd fn) = true) :
    ∀ f, fn = some f → 0 < wd → ∀ p ∈ st.heap, p.2.wd ≠ wd ∧ p.2.filename ≠ f := by
  intro f hfn hpos p hp
  subst hfn
  simp only [legalOp] at h
  rcases (Bool.or_eq_true _ _).mp h with h | h
  · exact absurd (of_decide_eq_true h) (not_le_of_gt hpos)
  · have := List.all_eq_true.mp h p hp
    rcases (Bool.and_eq_true _ _).mp this with ⟨h1, h2⟩
    exact ⟨by simpa using h1, by simpa using h2⟩

theorem applyOp_preserves {st : InoState} {op : RegOp} (hI : RegInv st)
    (hL : legalOp st op = true) : RegInv (applyOp st op) := by
  match op with
  | .addw wd fn => exact create_watch_preserves wd fn hI (legal_addw hL)
  | .rmw wd ok =>
    simp only [applyOp, inotifytools_remove_watch_by_wd]
    cases hf : watch_from_wd st wd with
    | none => exact hI
    | some i =>
      cases ok with
      | true =>
        have hm : i ∈ liveIds st :=
          hI.2.1 i (findS_eq_some hf).1
        exact eraseWatch_preserves hI hm
      | false => exact hI
  | .rmf fn ok =>
    simp only [applyOp, inotifytools_remove_watch_by_filename]
    cases hf : watch_from_filename st fn with
    | none => exact hI
    | some i =>
      cases ok with
      | true =>
        have hm : i ∈ liveIds st :=
          hI.2.2.2.1 i (findS_eq_some hf).1
        exact eraseWatch_preserves hI hm
      | false => exact hI

theorem regInv_run {ops : List RegOp} :
    ∀ {st : InoState}, RegInv st → legalOps st ops = true →
      RegInv (List.foldl applyOp st ops) := by
  induction ops with
  | nil => intro st hI _; exact hI
  | cons op ops ih =>
    intro st hI hL
    rcases (Bool.and_eq_true _ _).mp hL with ⟨h1, h2⟩
    exact ih (applyOp_preserves hI h1) h2

theorem regInv_initial : RegInv initialState := by
  refine ⟨?_, ?_, ?_, ?_, ?_, ?_, ?_, ?_⟩ <;> simp [initialState, liveIds]

instance regInvDecidable (st : InoState) : Decidable (RegInv st) := by
  unfold RegInv
  infer_instance

/-- C1 (amended): for every sequence of watch creations and removals
(by descriptor or by filename) in which each effective creation uses a
fresh descriptor and a fresh path, the descriptor index and the path
index contain the same set of live watches, each live watch appears
exactly once in each index, and every live watch is locatable by its
current descriptor and its current path.  (As stated the claim also
covered the rename operations; the counterexample shows that
inotifytools_set_filename_by_wd rewrites the path key in place without
reindexing, leaving a live watch unlocatable by its current path, and
that inotifytools_replace_filename drops a watch from the path index
when its substituted path collides with another watch, so the indices
diverge.) -/
theorem C1_index_consistency_amended (ops : List RegOp)
    (hL : legalOps initialState ops = true) :
    RegInv (List.foldl applyOp initialState ops) ∧
      Locatable (List.foldl applyOp initialState ops) := by
  have h := regInv_run regInv_initial hL
  exact ⟨h, inv_locatable h⟩

/-- Witness for C1: a concrete legal sequence of two creations and one
removal keeps both indices consistent and locatable. -/
theorem C1_index_consistency_witness :
    RegInv (List.foldl applyOp initialState
      [RegOp.addw 1 (some (s2l "a")), RegOp.addw 2 (some (s2l "b")),
       RegOp.rmw 1 true]) ∧
    Locatable (List.foldl applyOp initialState
      [RegOp.addw 1 (some (s2l "a")), RegOp.addw 2 (some (s2l "b")),
       RegOp.rmw 1 true]) :=
  C1_index_consistency_amended _ (by decide)

/-- Counterexample to C1 as stated.  First sequence: watches (wd 1,
path a) and (wd 2, path c); inotifytools_set_filename_by_wd renames
wd 2 to path 0 in place, after which the watch is live with current
path 0 yet unlocatable through the path index (and its old path no
longer finds it either).  Second sequence: watches at /a/x and /b/x;
inotifytools_replace_filename of the /a/ tree onto /b/ rewrites the
first watch to /b/x, which collides with the second, and the watch
disappears from the path index while remaining in the descriptor
index: the indices no longer contain the same set of live watches. -/
theorem C1_index_consistency_counterexample :
    (let stB := inotifytools_set_filename_by_wd
        (create_watch (create_watch initialState 1 (some (s2l "a"))) 2
          (some (s2l "c"))) 2 (s2l "0")
     (heapFind stB.heap 1).map (fun w => w.filename) = some (s2l "0")
       ∧ 1 ∈ stB.tree_filename
       ∧ watch_from_filename stB (s2l "0") = none
       ∧ watch_from_filename stB (s2l "c") = none)
    ∧ (let stD := inotifytools_replace_filename
        (create_watch (create_watch initialState 1 (some (s2l "/a/x"))) 2
          (some (s2l "/b/x"))) (some (s2l "/a/")) (some (s2l "/b/"))
       stD.tree_wd = [0, 1] ∧ stD.tree_filename = [1]
         ∧ (heapFind stD.heap 0).map (fun w => w.filename) = some (s2l "/b/x")) := by
  constructor
  · exact ⟨by decide, by decide, by decide, by decide⟩
  · exact ⟨by decide, by decide, by decide⟩

/-- C5 (amended): create_watch(wd, filename) is a no-op returning
nothing usable whenever wd <= 0 or the filename pointer is NULL; the
C check is wd <= 0 || !filename, so an empty-but-present path string is
not rejected (see the counterexample). -/
theorem C5_create_watch_rejects (st : InoState) (wd : Int)
    (fn : Option (List Char)) (h : wd ≤ 0 ∨ fn = none) :
    create_watch st wd fn = st := by
  rcases h with h | h
  · match fn with
    | none => rfl
    | some f => simp [create_watch, h]
  · subst h
    rfl

/-- Witness for C5: create_watch with wd = 0 on a concrete state
changes nothing. -/
theorem C5_create_watch_rejects_witness :
    create_watch initialState 0 (some (s2l "a")) = initialState :=
  C5_create_watch_rejects initialState 0 (some (s2l "a")) (Or.inl (by decide))

/-- Counterexample to C5 as stated: with a positive wd and an *empty*
path string, create_watch does not fail: it allocates a watch and
inserts it into both indices. -/
theorem C5_create_watch_counterexample :
    (create_watch initialState 5 (some [])).tree_wd = [0]
      ∧ (create_watch initialState 5 (some [])).tree_filename = [0]
      ∧ (heapFind (create_watch initialState 5 (some [])).heap 0).map
          (fun w => w.filename) = some [] := by
  exact ⟨by decide, by decide, by decide⟩

/-- C6: inotifytools_remove_watch_by_wd(wd).  An unknown wd is a
successful idempotent no-op returning 1; when the external
inotify_rm_watch call fails the function returns 0, surfaces the
failure through the stored error code, and leaves the registry
untouched (the watch stays in both indices); on external success it
erases the watch from both indices and from the heap and returns 1,
leaving every other watch in place. -/
theorem C6_remove_watch_by_wd_semantics (st : InoState) (wd : Int) :
    (watch_from_wd st wd = none →
      ∀ ok, inotifytools_remove_watch_by_wd st wd ok = (st, 1))
    ∧ (∀ i, watch_from_wd st wd = some i →
        (inotifytools_remove_watch_by_wd st wd false).2 = 0
        ∧ (inotifytools_remove_watch_by_wd st wd false).1.heap = st.heap
        ∧ (inotifytools_remove_watch_by_wd st wd false).1.tree_wd = st.tree_wd
        ∧ (inotifytools_remove_watch_by_wd st wd false).1.tree_filename
            = st.tree_filename
        ∧ (inotifytools_remove_watch_by_wd st wd false).1.error ≠ 0)
    ∧ (∀ i, RegInv st → watch_from_wd st wd = some i →
        (inotifytools_remove_watch_by_wd st wd true).2 = 1
        ∧ i ∉ liveIds (inotifytools_remove_watch_by_wd st wd true).1
        ∧ i ∉ (inotifytools_remove_watch_by_wd st wd true).1.tree_wd
        ∧ i ∉ (inotifytools_remove_watch_by_wd st wd true).1.tree_filename
        ∧ ∀ j, j ≠ i →
            (j ∈ (inotifytools_remove_watch_by_wd st wd true).1.tree_wd
                ↔ j ∈ st.tree_wd)
            ∧ (j ∈ (inotifytools_remove_watch_by_wd st wd true).1.tree_filename
                ↔ j ∈ st.tree_filename)
            ∧ heapFind (inotifytools_remove_watch_by_wd st wd true).1.heap j
                = heapFind st.heap j) := by
  refine ⟨?_, ?_, ?_⟩
  · intro hf ok
    simp [inotifytools_remove_watch_by_wd, hf]
  · intro i hf
    simp only [inotifytools_remove_watch_by_wd, hf, Bool.false_eq_true, if_false]
    refine ⟨trivial, trivial, trivial, trivial, by decide⟩
  · intro i hI hf
    obtain ⟨hnd, hwd1, hwd2, hfn1, hfn2, hwds, hfns, hnext⟩ := hI
    have hmw : i ∈ st.tree_wd := (findS_eq_some hf).1
    have hml : i ∈ liveIds st := hwd1 i hmw
    have hmf : i ∈ st.tree_filename := hfn2 i hml
    have hwdmem := deleteS_mem (wdOf st.heap) hwds hmw
    have hfnmem := deleteS_mem (fnOf st.heap) hfns hmf
    simp only [inotifytools_remove_watch_by_wd, hf, eq_self_iff_true, if_true]
    refine ⟨trivial, ?_, ?_, ?_, ?_⟩
    · simp only [eraseWatch, liveIds, map_fst_filter, List.mem_filter]
      intro h
      simp at h
    · intro h
      exact absurd ((hwdmem i).mp h).2 (by simp)
    · intro h
      exact absurd ((hfnmem i).mp h).2 (by simp)
    · intro j hj
      refine ⟨?_, ?_, heapFind_filter_ne hj⟩
      · constructor
        · intro h
          exact ((hwdmem j).mp h).1
        · intro h
          exact (hwdmem j).mpr ⟨h, hj⟩
      · constructor
        · intro h
          exact ((hfnmem j).mp h).1
        · intro h
          exact (hfnmem j).mpr ⟨h, hj⟩

/-- Witness for C6: on a registry holding the single watch (wd 1,
path a), a successful removal of wd 1 returns 1 and empties both
indices, and a failed external removal leaves everything in place with
return 0, while removing the unknown wd 7 returns 1 unchanged. -/
theorem C6_remove_watch_by_wd_witness :
    ((inotifytools_remove_watch_by_wd
        (create_watch initialState 1 (some (s2l "a"))) 1 true).2 = 1
      ∧ 0 ∉ liveIds (inotifytools_remove_watch_by_wd
          (create_watch initialState 1 (some (s2l "a"))) 1 true).1
      ∧ 0 ∉ (inotifytools_remove_watch_by_wd
          (create_watch initialState 1 (some (s2l "a"))) 1 true).1.tree_wd
      ∧ 0 ∉ (inotifytools_remove_watch_by_wd
          (create_watch initialState 1 (some (s2l "a"))) 1 true).1.tree_filename)
    ∧ inotifytools_remove_watch_by_wd
        (create_watch initialState 1 (some (s2l "a"))) 7 true
        = (create_watch initialState 1 (some (s2l "a")), 1) := by
  constructor
  · have h := (C6_remove_watch_by_wd_semantics
      (create_watch initialState 1 (some (s2l "a"))) 1).2.2 0
      (by decide) (by decide)
    exact ⟨h.1, h.2.1, h.2.2.1, h.2.2.2.1⟩
  · exact (C6_remove_watch_by_wd_semantics
      (create_watch initialState 1 (some (s2l "a"))) 7).1 (by decide) true

/-- C3 (amended): per-watch semantics of the replace_filename callback
used by inotifytools_replace_filename.  For a live watch w:
a watch whose path does not begin with the old name is untouched;
a watch whose *current path equals the new name* is skipped (this, not
"computed replacement equals current path", is the code's skip test);
otherwise the path field is always rewritten to
newname ++ (path minus old leading part) - so /a/x/y becomes /b/x/y
under /a/ to /b/ - and the watch is reinserted in the path index when
the new key is free, but *dropped from the path index* (path field
still rewritten) when the new key collides with a different existing
watch; in every case no duplicate key enters the path index. -/
theorem C3_replace_filename_semantics (st : InoState) (i : Nat) (w : watch)
    (o n : List Char) (hI : RegInv st) (hw : heapFind st.heap i = some w) :
    (startsWith o w.filename = false → replace_filename_node o n st i = st)
    ∧ (startsWith o w.filename = true → w.filename = n →
        replace_filename_node o n st i = st)
    ∧ (startsWith o w.filename = true → w.filename ≠ n →
        (heapFind (replace_filename_node o n st i).heap i).map
            (fun w => w.filename) = some (n ++ w.filename.drop o.length)
        ∧ ((∀ j ∈ st.tree_filename, j ≠ i →
              fnOf st.heap j ≠ n ++ w.filename.drop o.length) →
            i ∈ (replace_filename_node o n st i).tree_filename)
        ∧ ((∃ j ∈ st.tree_filename, j ≠ i ∧
              fnOf st.heap j = n ++ w.filename.drop o.length) →
            i ∉ (replace_filename_node o n st i).tree_filename)
        ∧ (replace_filename_node o n st i).tree_filename.Pairwise
            (fun a b => fnOf (replace_filename_node o n st i).heap a
              ≠ fnOf (replace_filename_node o n st i).heap b)) := by
  obtain ⟨hnd, hwd1, hwd2, hfn1, hfn2, hfns0, hfns, hnext⟩ := hI
  refine ⟨?_, ?_, ?_⟩
  · intro hs
    simp [replace_filename_node, hw, hs]
  · intro hs he
    simp [replace_filename_node, hw, hs, he]
  · intro hs he
    have hml : i ∈ liveIds st :=
      List.mem_map.mpr ⟨(i, w), heapFind_mem hw, rfl⟩
    have hmf : i ∈ st.tree_filename := hfn2 i hml
    have hki : fnOf st.heap i = w.filename := by simp [fnOf, hw]
    have hstep : replace_filename_node o n st i =
        { st with
          heap := heapUpdate st.heap i (fun x => { x with filename := n ++ w.filename.drop o.length }),
          tree_filename := insertS
            (fnOf (heapUpdate st.heap i (fun x => { x with filename := n ++ w.filename.drop o.length }))) i
            (deleteS (fnOf st.heap) w.filename st.tree_filename) } := by
      simp only [replace_filename_node, hw, hs, if_true, if_neg he]
    set heap2 := heapUpdate st.heap i
      (fun x => { x with filename := n ++ w.filename.drop o.length }) with hh2
    set nm := n ++ w.filename.drop o.length with hnm
    have hfind2 : heapFind heap2 i = some { w with filename := nm } := by
      rw [hh2, heapFind_update_self, hw]
      rfl
    have hki2 : fnOf heap2 i = nm := by simp [fnOf, hfind2]
    have hcongr : ∀ j, j ≠ i → fnOf heap2 j = fnOf st.heap j := by
      intro j hj
      rw [hh2, fnOf, fnOf, heapFind_update_ne _ hj]
    have hmemt := deleteS_mem (fnOf st.heap) hfns hmf
    have hdel : deleteS (fnOf st.heap) w.filename st.tree_filename
        = deleteS (fnOf st.heap) (fnOf st.heap i) st.tree_filename := by
      rw [hki]
    have hsortt : (deleteS (fnOf st.heap) w.filename st.tree_filename).Pairwise
        (fun a b => fnOf heap2 a < fnOf heap2 b) := by
      refine pairwise_congr ?_ (deleteS_sorted hfns)
      intro j hj
      rw [hdel] at hj
      exact (hcongr j ((hmemt j).mp hj).2).symm
    refine ⟨?_, ?_, ?_, ?_⟩
    · rw [hstep]
      simp only [hfind2]
      rfl
    · intro hfree
      rw [hstep]
      simp only []
      have hfr : ∀ j ∈ deleteS (fnOf st.heap) w.filename st.tree_filename,
          fnOf heap2 j ≠ fnOf heap2 i := by
        intro j hj
        rw [hdel] at hj
        rcases (hmemt j).mp hj with ⟨hj1, hj2⟩
        rw [hcongr j hj2, hki2]
        exact hfree j hj1 hj2
      exact (insertS_mem hfr i).mpr (Or.inl rfl)
    · intro ⟨j, hj1, hj2, hj3⟩
      rw [hstep]
      simp only []
      have hjt : j ∈ deleteS (fnOf st.heap) w.filename st.tree_filename := by
        rw [hdel]
        exact (hmemt j).mpr ⟨hj1, hj2⟩
      have heq : insertS (fnOf heap2) i
          (deleteS (fnOf st.heap) w.filename st.tree_filename)
          = deleteS (fnOf st.heap) w.filename st.tree_filename := by
        refine insertS_eq_of_mem hsortt ⟨j, hjt, ?_⟩
        rw [hcongr j hj2, hki2]
        exact hj3
      rw [heq, hdel]
      intro hmem
      exact absurd ((hmemt i).mp (hdel ▸ hmem)).2 (by simp)
    · rw [hstep]
      simp only []
      have hsorted2 : (insertS (fnOf heap2) i
          (deleteS (fnOf st.heap) w.filename st.tree_filename)).Pairwise
          (fun a b => fnOf heap2 a ≠ fnOf heap2 b) := by
        by_cases hc : ∃ j ∈ deleteS (fnOf st.heap) w.filename st.tree_filename,
            fnOf heap2 j = fnOf heap2 i
        · rw [insertS_eq_of_mem hsortt hc]
          exact hsortt.imp (fun hlt => ne_of_lt hlt)
        · push_neg at hc
          exact (insertS_sorted hsortt hc).imp (fun hlt => ne_of_lt hlt)
      exact hsorted2

/-- Witness for C3: under the prefix move /a/ to /b/, a watch at
/a/x/y (no collision) is rewritten to /b/x/y and reindexed, while on a
registry holding /a/x and /b/x the first watch collides and is dropped
from the path index with its path field rewritten. -/
theorem C3_replace_filename_witness :
    ((heapFind (replace_filename_node (s2l "/a/") (s2l "/b/")
        (create_watch initialState 1 (some (s2l "/a/x/y"))) 0).heap 0).map
          (fun w => w.filename) = some (s2l "/b/x/y")
      ∧ 0 ∈ (replace_filename_node (s2l "/a/") (s2l "/b/")
          (create_watch initialState 1 (some (s2l "/a/x/y"))) 0).tree_filename)
    ∧ ((heapFind (replace_filename_node (s2l "/a/") (s2l "/b/")
        (create_watch (create_watch initialState 1 (some (s2l "/a/x"))) 2
          (some (s2l "/b/x"))) 0).heap 0).map
          (fun w => w.filename) = some (s2l "/b/x")
      ∧ 0 ∉ (replace_filename_node (s2l "/a/") (s2l "/b/")
          (create_watch (create_watch initialState 1 (some (s2l "/a/x"))) 2
            (some (s2l "/b/x"))) 0).tree_filename) := by
  constructor
  · have h := (C3_replace_filename_semantics
      (create_watch initialState 1 (some (s2l "/a/x/y"))) 0
      { wd := 1, filename := s2l "/a/x/y" } (s2l "/a/") (s2l "/b/")
      (by decide) (by decide)).2.2 (by decide) (by decide)
    exact ⟨h.1, h.2.1 (by decide)⟩
  · have h := (C3_replace_filename_semantics
      (create_watch (create_watch initialState 1 (some (s2l "/a/x"))) 2
        (some (s2l "/b/x"))) 0
      { wd := 1, filename := s2l "/a/x" } (s2l "/a/") (s2l "/b/")
      (by decide) (by decide)).2.2 (by decide) (by decide)
    exact ⟨h.1, h.2.2.1 ⟨1, by decide, by decide, by decide⟩⟩

/-- Counterexample to C3 as stated.  With watches at /a/x and /b/x,
replacing the /a/ tree by /b/ computes /b/x for the first watch, which
collides with the second; the claim says the first watch is then left
unchanged, but the code rewrites its path field to /b/x (and drops it
from the path index).  Moreover the skip test compares the current
path with the *new name*: replacing /a/ by /a/x on a watch at /a/x is
skipped by the code although the computed replacement /a/xx differs
from the current path, which under the claim would have to be
installed. -/
theorem C3_replace_filename_counterexample :
    ((heapFind (inotifytools_replace_filename
        (create_watch (create_watch initialState 1 (some (s2l "/a/x"))) 2
          (some (s2l "/b/x"))) (some (s2l "/a/")) (some (s2l "/b/"))).heap 0).map
        (fun w => w.filename) = some (s2l "/b/x")
      ∧ some (s2l "/b/x") ≠ some (s2l "/a/x"))
    ∧ (inotifytools_replace_filename
        (create_watch initialState 1 (some (s2l "/a/x")))
        (some (s2l "/a/")) (some (s2l "/a/x"))
        = create_watch initialState 1 (some (s2l "/a/x"))
      ∧ s2l "/a/x" ++ (s2l "/a/x").drop (s2l "/a/").length = s2l "/a/xx"
      ∧ s2l "/a/xx" ≠ s2l "/a/x") := by
  exact ⟨⟨by decide, by decide⟩, by decide, by decide, by decide⟩

/-!
## Event codec (inotifytools_str_to_event_sep / inotifytools_event_to_str_sep)

The IN_* numeric constants come from inotify.h (standard Linux values;
the header is included, not part of these sources).  Masks are Nat
(the C int is nonnegative for every real mask); the value -1 returned
for an invalid separator or an unmatched token is modelled as none,
the empty mask 0 as some 0.
-/

def IN_ACCESS : Nat := 0x00000001
def IN_MODIFY : Nat := 0x00000002
def IN_ATTRIB : Nat := 0x00000004
def IN_CLOSE_WRITE : Nat := 0x00000008
def IN_CLOSE_NOWRITE : Nat := 0x00000010
def IN_OPEN : Nat := 0x00000020
def IN_MOVED_FROM : Nat := 0x00000040
def IN_MOVED_TO : Nat := 0x00000080
def IN_CREATE : Nat := 0x00000100
def IN_DELETE : Nat := 0x00000200
def IN_DELETE_SELF : Nat := 0x00000400
def IN_MOVE_SELF : Nat := 0x00000800
def IN_UNMOUNT : Nat := 0x00002000
def IN_Q_OVERFLOW : Nat := 0x00004000
def IN_IGNORED : Nat := 0x00008000
def IN_CLOSE : Nat := IN_CLOSE_WRITE ||| IN_CLOSE_NOWRITE
def IN_MOVE : Nat := IN_MOVED_FROM ||| IN_MOVED_TO
def IN_ISDIR : Nat := 0x40000000
def IN_ONESHOT : Nat := 0x80000000
def IN_ALL_EVENTS : Nat := 0x00000FFF

/-- strcasecmp == 0 on NUL-free ASCII strings. -/
def eqCI (a b : List Char) : Bool :=
  a.map Char.toLower == b.map Char.toLower

/-- onestr_to_event: one token to a mask; none models the C -1 for an
unmatched token, some 0 the empty/NULL token. -/
def onestr_to_event (event : List Char) : Option Nat :=
  if event = [] then some 0
  else if eqCI event (s2l "ACCESS") then some IN_ACCESS
  else if eqCI event (s2l "MODIFY") then some IN_MODIFY
  else if eqCI event (s2l "ATTRIB") then some IN_ATTRIB
  else if eqCI event (s2l "CLOSE_WRITE") then some IN_CLOSE_WRITE
  else if eqCI event (s2l "CLOSE_NOWRITE") then some IN_CLOSE_NOWRITE
  else if eqCI event (s2l "OPEN") then some IN_OPEN
  else if eqCI event (s2l "MOVED_FROM") then some IN_MOVED_FROM
  else if eqCI event (s2l "MOVED_TO") then some IN_MOVED_TO
  else if eqCI event (s2l "CREATE") then some IN_CREATE
  else if eqCI event (s2l "DELETE") then some IN_DELETE
  else if eqCI event (s2l "DELETE_SELF") then some IN_DELETE_SELF
  else if eqCI event (s2l "UNMOUNT") then some IN_UNMOUNT
  else if eqCI event (s2l "Q_OVERFLOW") then some IN_Q_OVERFLOW
  else if eqCI event (s2l "IGNORED") then some IN_IGNORED
  else if eqCI event (s2l "CLOSE") then some IN_CLOSE
  else if eqCI event (s2l "MOVE_SELF") then some IN_MOVE_SELF
  else if eqCI event (s2l "MOVE") then some IN_MOVE
  else if eqCI event (s2l "ISDIR") then some IN_ISDIR
  else if eqCI event (s2l "ONESHOT") then some IN_ONESHOT
  else if eqCI event (s2l "ALL_EVENTS") then some IN_ALL_EVENTS
  else none

theorem dropWhile_length_le (p : Char → Bool) (l : List Char) :
    (l.dropWhile p).length ≤ l.length := by
  induction l with
  | nil => simp
  | cons c l ih =>
    by_cases h : p c
    · rw [List.dropWhile_cons_of_pos h]
      exact le_trans ih (Nat.le_succ _)
    · rw [List.dropWhile_cons_of_neg h]

/-- The token loop of inotifytools_str_to_event_sep: cut the input at
the next separator, convert the token (an empty token yields the C 0,
an unmatched one the C -1, both abort the whole call with that value),
otherwise accumulate the bit(s); a separator as last character makes
the call return 0.  (The C truncates tokens beyond 4095 characters; a
truncated token can never equal a vocabulary word, so the truncation
cannot change any result and is not modelled.) -/
def strToEventLoop (sep : Char) (acc : Nat) (s : List Char) : Option Nat :=
  match onestr_to_event (s.takeWhile (fun c => c != sep)) with
  | none => none
  | some v =>
    if v = 0 then some 0
    else
      if h : (s.dropWhile (fun c => c != sep)) = [] then some (acc ||| v)
      else if (s.dropWhile (fun c => c != sep)).tail = [] then some 0
      else strToEventLoop sep (acc ||| v) (s.dropWhile (fun c => c != sep)).tail
termination_by s.length
decreasing_by
  have h1 : (s.dropWhile (fun c => c != sep)).length ≤ s.length :=
    dropWhile_length_le _ _
  have h2 : 0 < (s.dropWhile (fun c => c != sep)).length :=
    List.length_pos.mpr h
  have h3 : (s.dropWhile (fun c => c != sep)).tail.length
      = (s.dropWhile (fun c => c != sep)).length - 1 := List.length_tail _
  omega

/-- inotifytools_str_to_event_sep: a separator that is a letter or an
underscore is rejected outright (-1, i.e. none); NULL or empty input
gives the empty mask. -/
def inotifytools_str_to_event_sep (event : List Char) (sep : Char) :
    Option Nat :=
  if (s2l "_abcdefghijklmnopqrstuvwxyzABCDEFGHIJKLMNOPQRSTUVWXYZ").contains sep
  then none
  else if event = [] then some 0
  else strToEventLoop sep 0 event

/-- The 18 guarded strcat blocks of inotifytools_event_to_str_sep, in
source order: each entry is the bit pattern tested against the mask
and the name appended. -/
def eventBitNames : List (Nat × List Char) :=
  [(IN_ACCESS, s2l "ACCESS"),
   (IN_MODIFY, s2l "MODIFY"),
   (IN_ATTRIB, s2l "ATTRIB"),
   (IN_CLOSE_WRITE, s2l "CLOSE_WRITE"),
   (IN_CLOSE_NOWRITE, s2l "CLOSE_NOWRITE"),
   (IN_OPEN, s2l "OPEN"),
   (IN_MOVED_FROM, s2l "MOVED_FROM"),
   (IN_MOVED_TO, s2l "MOVED_TO"),
   (IN_CREATE, s2l "CREATE"),
   (IN_DELETE, s2l "DELETE"),
   (IN_DELETE_SELF, s2l "DELETE_SELF"),
   (IN_UNMOUNT, s2l "UNMOUNT"),
   (IN_Q_OVERFLOW, s2l "Q_OVERFLOW"),
   (IN_IGNORED, s2l "IGNORED"),
   (IN_CLOSE, s2l "CLOSE"),
   (IN_MOVE_SELF, s2l "MOVE_SELF"),
   (IN_ISDIR, s2l "ISDIR"),
   (IN_ONESHOT, s2l "ONESHOT")]

/-- The %08x fallback rendering of sprintf for a mask that matched no
name (unsigned int, eight zero-padded lowercase hex digits). -/
def hexPad8 (n : Nat) : List Char :=
  let d := Nat.toDigits 16 (n % 2 ^ 32)
  List.replicate (8 - d.length) '0' ++ d

/-- inotifytools_event_to_str_sep: build sep-name for every matching
bit in source order; if nothing matched, fall back to the hexadecimal
rendering (also led by sep); return the buffer from index 1 on. -/
def inotifytools_event_to_str_sep (events : Nat) (sep : Char) : List Char :=
  let s := eventBitNames.foldl
    (fun acc p => if p.1 &&& events ≠ 0 then acc ++ sep :: p.2 else acc) []
  let s2 := if s = [] then sep :: (s2l "0x" ++ hexPad8 events) else s
  s2.drop 1

/-!
## Codec lemmas
-/

/-- The bitwise OR of a list of masks. -/
def orL : List Nat → Nat
  | [] => 0
  | k :: ks => k ||| orL ks

theorem land_lor_left (a b c : Nat) :
    a &&& (b ||| c) = (a &&& b) ||| (a &&& c) := by
  apply Nat.eq_of_testBit_eq
  intro i
  simp [Nat.testBit_land, Nat.testBit_lor, Bool.and_or_distrib_left]

theorem lor_eq_zero {a b : Nat} : a ||| b = 0 ↔ a = 0 ∧ b = 0 := by
  constructor
  · intro h
    constructor
    · apply Nat.eq_of_testBit_eq
      intro i
      have := congrArg (fun n => Nat.testBit n i) h
      simp only [Nat.testBit_lor] at this
      simp only [Nat.zero_testBit] at this ⊢
      exact (Bool.or_eq_false_iff.mp this).1
    · apply Nat.eq_of_testBit_eq
      intro i
      have := congrArg (fun n => Nat.testBit n i) h
      simp only [Nat.testBit_lor] at this
      simp only [Nat.zero_testBit] at this ⊢
      exact (Bool.or_eq_false_iff.mp this).2
  · intro ⟨h1, h2⟩
    rw [h1, h2, Nat.or_zero]

theorem lor_left_comm (a b c : Nat) : a ||| (b ||| c) = b ||| (a ||| c) := by
  rw [← Nat.lor_assoc, Nat.lor_comm a b, Nat.lor_assoc]

theorem orL_absorb {k : Nat} {l : List Nat} (h : k ∈ l) :
    k ||| orL l = orL l := by
  induction l with
  | nil => cases h
  | cons x xs ih =>
    rcases List.mem_cons.mp h with h | h
    · subst h
      rw [orL, ← Nat.lor_assoc, Nat.or_self]
    · rw [orL, lor_left_comm, ih h]

theorem orL_mono (l l2 : List Nat) (h : ∀ k ∈ l, k ∈ l2) :
    orL l ||| orL l2 = orL l2 := by
  induction l with
  | nil => rw [orL, Nat.zero_or]
  | cons x xs ih =>
    rw [orL, Nat.lor_assoc, ih (fun k hk => h k (List.mem_cons_of_mem _ hk)),
      orL_absorb (h x (List.mem_cons_self _ _))]

theorem orL_eq_of_same_mem {l l2 : List Nat} (h : ∀ k, k ∈ l ↔ k ∈ l2) :
    orL l = orL l2 := by
  have h1 := orL_mono l l2 (fun k hk => (h k).mp hk)
  have h2 := orL_mono l2 l (fun k hk => (h k).mpr hk)
  calc orL l = orL l2 ||| orL l := h2.symm
    _ = orL l ||| orL l2 := Nat.lor_comm _ _
    _ = orL l2 := h1

theorem orL_append (l l2 : List Nat) :
    orL (l ++ l2) = orL l ||| orL l2 := by
  induction l with
  | nil => rw [List.nil_append, orL, Nat.zero_or]
  | cons x xs ih => rw [List.cons_append, orL, orL, ih, Nat.lor_assoc]

theorem land_orL_ne_zero {b : Nat} {ks : List Nat} :
    b &&& orL ks ≠ 0 ↔ ∃ k ∈ ks, b &&& k ≠ 0 := by
  induction ks with
  | nil =>
    simp [orL]
  | cons x xs ih =>
    rw [orL, land_lor_left]
    constructor
    · intro h
      by_cases hx : b &&& x = 0
      · rw [hx, Nat.zero_or] at h
        rcases ih.mp h with ⟨k, hk, hbk⟩
        exact ⟨k, List.mem_cons_of_mem _ hk, hbk⟩
      · exact ⟨x, List.mem_cons_self _ _, hx⟩
    · intro ⟨k, hk, hbk⟩
      intro hz
      rcases lor_eq_zero.mp hz with ⟨h1, h2⟩
      rcases List.mem_cons.mp hk with h | h
      · exact hbk (h ▸ h1)
      · exact ih.mpr ⟨k, h, hbk⟩ h2

/-- Separator-joined token list (the shape of both a rendered mask and
the input the parse loop walks). -/
def sepJoin (sep : Char) : List (List Char) → List Char
  | [] => []
  | [t] => t
  | t :: ts => t ++ sep :: sepJoin sep ts

theorem sepJoin_cons₂ (sep : Char) (t t2 : List Char) (ts : List (List Char)) :
    sepJoin sep (t :: t2 :: ts) = t ++ sep :: sepJoin sep (t2 :: ts) := rfl

theorem sepJoin_ne_nil {sep : Char} {t : List Char} {ts : List (List Char)}
    (h : t ≠ []) : sepJoin sep (t :: ts) ≠ [] := by
  cases ts with
  | nil => exact h
  | cons t2 ts =>
    rw [sepJoin_cons₂]
    cases t with
    | nil => exact absurd rfl h
    | cons c cs => simp

def preJoin (sep : Char) (names : List (List Char)) : List Char :=
  (names.map (fun t => sep :: t)).flatten

theorem preJoin_cons (sep : Char) (t : List Char) (ts : List (List Char)) :
    preJoin sep (t :: ts) = sep :: sepJoin sep (t :: ts) := by
  induction ts generalizing t with
  | nil => simp [preJoin, sepJoin]
  | cons t2 ts ih =>
    have : preJoin sep (t :: t2 :: ts) = (sep :: t) ++ preJoin sep (t2 :: ts) := by
      simp [preJoin]
    rw [this, ih t2, sepJoin_cons₂]
    simp

theorem takeWhile_all {sep : Char} {t : List Char} (h : sep ∉ t) :
    t.takeWhile (fun c => c != sep) = t := by
  induction t with
  | nil => rfl
  | cons c cs ih =>
    have hc : (c != sep) = true := by
      simp only [bne_iff_ne]
      intro he
      exact h (he ▸ List.mem_cons_self _ _)
    rw [List.takeWhile_cons, if_pos hc, ih (fun hm => h (List.mem_cons_of_mem _ hm))]

theorem dropWhile_all {sep : Char} {t : List Char} (h : sep ∉ t) :
    t.dropWhile (fun c => c != sep) = [] := by
  induction t with
  | nil => rfl
  | cons c cs ih =>
    have hc : (c != sep) = true := by
      simp only [bne_iff_ne]
      intro he
      exact h (he ▸ List.mem_cons_self _ _)
    rw [List.dropWhile_cons, if_pos hc, ih (fun hm => h (List.mem_cons_of_mem _ hm))]

theorem takeWhile_append_sep {sep : Char} {t r : List Char} (h : sep ∉ t) :
    (t ++ sep :: r).takeWhile (fun c => c != sep) = t := by
  induction t with
  | nil =>
    rw [List.nil_append, List.takeWhile_cons, if_neg (by simp)]
  | cons c cs ih =>
    have hc : (c != sep) = true := by
      simp only [bne_iff_ne]
      intro he
      exact h (he ▸ List.mem_cons_self _ _)
    rw [List.cons_append, List.takeWhile_cons, if_pos hc,
      ih (fun hm => h (List.mem_cons_of_mem _ hm))]

theorem dropWhile_append_sep {sep : Char} {t r : List Char} (h : sep ∉ t) :
    (t ++ sep :: r).dropWhile (fun c => c != sep) = sep :: r := by
  induction t with
  | nil =>
    rw [List.nil_append, List.dropWhile_cons, if_neg (by simp)]
  | cons c cs ih =>
    have hc : (c != sep) = true := by
      simp only [bne_iff_ne]
      intro he
      exact h (he ▸ List.mem_cons_self _ _)
    rw [List.cons_append, List.dropWhile_cons, if_pos hc,
      ih (fun hm => h (List.mem_cons_of_mem _ hm))]

/-- One token, no separator anywhere: parse it and finish. -/
theorem strToEventLoop_last {sep : Char} {t : List Char} {v : Nat} (acc : Nat)
    (hsep : sep ∉ t) (hv : onestr_to_event t = some v) (hvz : v ≠ 0) :
    strToEventLoop sep acc t = some (acc ||| v) := by
  unfold strToEventLoop
  rw [takeWhile_all hsep, hv]
  dsimp only
  rw [if_neg hvz, dif_pos (dropWhile_all hsep)]

/-- One good token, a separator, and a nonempty remainder: accumulate
and continue on the remainder. -/
theorem strToEventLoop_step {sep : Char} {t r : List Char} {v : Nat} (acc : Nat)
    (hsep : sep ∉ t) (hv : onestr_to_event t = some v) (hvz : v ≠ 0)
    (hr : r ≠ []) :
    strToEventLoop sep acc (t ++ sep :: r) = strToEventLoop sep (acc ||| v) r := by
  conv_lhs => unfold strToEventLoop
  rw [takeWhile_append_sep hsep, hv]
  dsimp only
  rw [if_neg hvz, dif_neg (by rw [dropWhile_append_sep hsep]; simp)]
  rw [dropWhile_append_sep hsep]
  simp only [List.tail_cons]
  rw [if_neg hr]

/-- A good token followed by a trailing separator: the whole call
returns the empty mask 0, discarding the accumulator. -/
theorem strToEventLoop_trailing {sep : Char} {t : List Char} {v : Nat} (acc : Nat)
    (hsep : sep ∉ t) (hv : onestr_to_event t = some v) (hvz : v ≠ 0) :
    strToEventLoop sep acc (t ++ [sep]) = some 0 := by
  unfold strToEventLoop
  have h0 : (t ++ [sep]) = t ++ sep :: [] := rfl
  rw [h0, takeWhile_append_sep hsep, hv]
  dsimp only
  rw [if_neg hvz, dif_neg (by rw [dropWhile_append_sep hsep]; simp)]
  rw [dropWhile_append_sep hsep]
  simp

/-- An empty token (input beginning with the separator) returns 0. -/
theorem strToEventLoop_sep_head {sep : Char} (acc : Nat) (r : List Char) :
    strToEventLoop sep acc (sep :: r) = some 0 := by
  unfold strToEventLoop
  rw [List.takeWhile_cons, if_neg (by simp)]
  simp [onestr_to_event]

theorem strToEventLoop_nil {sep : Char} (acc : Nat) :
    strToEventLoop sep acc [] = some 0 := by
  unfold strToEventLoop
  simp [onestr_to_event]

/-- A good (parseable, nonzero, separator-free, nonempty) token paired
with its mask value. -/
def goodTok (sep : Char) (p : List Char × Nat) : Prop :=
  onestr_to_event p.1 = some p.2 ∧ p.2 ≠ 0 ∧ p.1 ≠ [] ∧ sep ∉ p.1

/-- The parse loop over a separator-joined list of good tokens ORs all
their values onto the accumulator. -/
theorem strToEventLoop_sepJoin {sep : Char} :
    ∀ (ps : List (List Char × Nat)) (acc : Nat), ps ≠ [] →
    (∀ p ∈ ps, goodTok sep p) →
    strToEventLoop sep acc (sepJoin sep (ps.map (fun p => p.1)))
      = some (ps.foldl (fun a p => a ||| p.2) acc) := by
  intro ps
  induction ps with
  | nil => intro acc h; exact absurd rfl h
  | cons p ps ih =>
    intro acc _ hgood
    rcases hgood p (List.mem_cons_self _ _) with ⟨hv, hvz, _, hsep⟩
    cases ps with
    | nil =>
      simp only [List.map_cons, List.map_nil, sepJoin, List.foldl]
      exact strToEventLoop_last acc hsep hv hvz
    | cons q qs =>
      have hq := hgood q (List.mem_cons_of_mem _ (List.mem_cons_self _ _))
      simp only [List.map_cons, sepJoin_cons₂]
      rw [strToEventLoop_step acc hsep hv hvz
        (sepJoin_ne_nil hq.2.2.1)]
      have := ih (acc ||| p.2) (by simp)
        (fun x hx => hgood x (List.mem_cons_of_mem _ hx))
      simp only [List.map_cons] at this
      rw [this]
      rfl

/-- The parse loop over good tokens followed by an empty token (and
anything after it) returns 0: the accumulated events are discarded. -/
theorem strToEventLoop_empty_tok {sep : Char} :
    ∀ (ps : List (List Char × Nat)) (acc : Nat) (rest : List (List Char)),
    (∀ p ∈ ps, goodTok sep p) →
    strToEventLoop sep acc (sepJoin sep (ps.map (fun p => p.1) ++ [] :: rest))
      = some 0 := by
  intro ps
  induction ps with
  | nil =>
    intro acc rest _
    cases rest with
    | nil => exact strToEventLoop_nil acc
    | cons r rs =>
      simp only [List.map_nil, List.nil_append, sepJoin_cons₂, List.nil_append]
      exact strToEventLoop_sep_head acc _
  | cons p ps ih =>
    intro acc rest hgood
    rcases hgood p (List.mem_cons_self _ _) with ⟨hv, hvz, _, hsep⟩
    have hconsne : ps.map (fun p => p.1) ++ [] :: rest ≠ [] := by
      cases hps : ps.map (fun p => p.1) <;> simp
    have hjshape : sepJoin sep ((p :: ps).map (fun p => p.1) ++ [] :: rest)
        = p.1 ++ sep :: sepJoin sep (ps.map (fun p => p.1) ++ [] :: rest) := by
      rw [List.map_cons, List.cons_append]
      cases hps : ps.map (fun p => p.1) ++ [] :: rest with
      | nil => exact absurd hps hconsne
      | cons x xs => exact sepJoin_cons₂ sep p.1 x xs
    rw [hjshape]
    by_cases hj : sepJoin sep (ps.map (fun p => p.1) ++ [] :: rest) = []
    · rw [hj]
      exact strToEventLoop_trailing acc hsep hv hvz
    · rw [strToEventLoop_step acc hsep hv hvz hj]
      exact ih _ rest (fun x hx => hgood x (List.mem_cons_of_mem _ hx))

/-- Every entry of the render table parses back (case-insensitively)
to exactly the bit pattern it was rendered for, is nonzero, nonempty,
and free of the comma separator. -/
theorem vocab_facts : ∀ p ∈ eventBitNames,
    onestr_to_event p.2 = some p.1 ∧ p.1 ≠ 0 ∧ p.2 ≠ []
      ∧ (',' : Char) ∉ p.2 := by decide

/-- The fifteen single-bit event kinds named by the codec, in the
order the renderer emits them (MOVE_SELF is emitted after CLOSE). -/
def primitiveBits : List Nat :=
  [IN_ACCESS, IN_MODIFY, IN_ATTRIB, IN_CLOSE_WRITE, IN_CLOSE_NOWRITE,
   IN_OPEN, IN_MOVED_FROM, IN_MOVED_TO, IN_CREATE, IN_DELETE,
   IN_DELETE_SELF, IN_UNMOUNT, IN_Q_OVERFLOW, IN_IGNORED, IN_MOVE_SELF]

theorem primitiveBits_disj : ∀ b ∈ primitiveBits, ∀ k ∈ primitiveBits,
    (b &&& k ≠ 0 ↔ b = k) := by decide

theorem close_land : ∀ k ∈ primitiveBits,
    (IN_CLOSE &&& k ≠ 0 ↔ (k = IN_CLOSE_WRITE ∨ k = IN_CLOSE_NOWRITE)) := by
  decide

theorem isdir_land : ∀ k ∈ primitiveBits, IN_ISDIR &&& k = 0 := by decide

theorem oneshot_land : ∀ k ∈ primitiveBits, IN_ONESHOT &&& k = 0 := by decide

theorem single_sel {ks : List Nat} (hsub : ∀ k ∈ ks, k ∈ primitiveBits)
    {b : Nat} (hb : b ∈ primitiveBits) :
    (b &&& orL ks ≠ 0 ↔ b ∈ ks) := by
  rw [land_orL_ne_zero]
  constructor
  · intro ⟨k, hk, hbk⟩
    have := (primitiveBits_disj b hb k (hsub k hk)).mp hbk
    exact this ▸ hk
  · intro h
    exact ⟨b, h, (primitiveBits_disj b hb b hb).mpr rfl⟩

theorem close_sel {ks : List Nat} (hsub : ∀ k ∈ ks, k ∈ primitiveBits) :
    (IN_CLOSE &&& orL ks ≠ 0 ↔ (IN_CLOSE_WRITE ∈ ks ∨ IN_CLOSE_NOWRITE ∈ ks)) := by
  rw [land_orL_ne_zero]
  constructor
  · intro ⟨k, hk, hbk⟩
    rcases (close_land k (hsub k hk)).mp hbk with h | h
    · exact Or.inl (h ▸ hk)
    · exact Or.inr (h ▸ hk)
  · intro h
    rcases h with h | h
    · exact ⟨IN_CLOSE_WRITE, h, (close_land _ (hsub _ h)).mpr (Or.inl rfl)⟩
    · exact ⟨IN_CLOSE_NOWRITE, h, (close_land _ (hsub _ h)).mpr (Or.inr rfl)⟩

theorem isdir_sel {ks : List Nat} (hsub : ∀ k ∈ ks, k ∈ primitiveBits) :
    IN_ISDIR &&& orL ks = 0 := by
  by_contra h
  rcases land_orL_ne_zero.mp h with ⟨k, hk, hbk⟩
  exact hbk (isdir_land k (hsub k hk))

theorem oneshot_sel {ks : List Nat} (hsub : ∀ k ∈ ks, k ∈ primitiveBits) :
    IN_ONESHOT &&& orL ks = 0 := by
  by_contra h
  rcases land_orL_ne_zero.mp h with ⟨k, hk, hbk⟩
  exact hbk (oneshot_land k (hsub k hk))

theorem foldGuard_eq (m : Nat) (sep : Char) :
    ∀ (ps : List (Nat × List Char)) (acc : List Char),
    ps.foldl (fun acc p => if p.1 &&& m ≠ 0 then acc ++ sep :: p.2 else acc) acc
    = acc ++ ((ps.filter (fun p => p.1 &&& m ≠ 0)).map (fun p => sep :: p.2)).flatten := by
  intro ps
  induction ps with
  | nil => intro acc; simp
  | cons p ps ih =>
    intro acc
    rw [List.foldl_cons, List.filter_cons]
    by_cases hc : p.1 &&& m ≠ 0
    · rw [if_pos hc, if_pos (by simpa using hc), ih]
      simp
    · rw [if_neg hc, if_neg (by simpa using hc), ih]

theorem map_fst_filter_pairs (q : Nat → Bool) :
    ∀ l : List (Nat × List Char),
    (l.filter (fun p => q p.1)).map (fun p => p.1)
      = (l.map (fun p => p.1)).filter q := by
  intro l
  induction l with
  | nil => rfl
  | cons p ps ih =>
    rw [List.filter_cons, List.map_cons, List.filter_cons]
    by_cases hc : q p.1 = true
    · rw [if_pos hc, if_pos hc, List.map_cons, ih]
    · rw [if_neg hc, if_neg hc, ih]

theorem foldl_lor_orL :
    ∀ (l : List (Nat × List Char)) (acc : Nat),
    l.foldl (fun a p => a ||| p.1) acc = acc ||| orL (l.map (fun p => p.1)) := by
  intro l
  induction l with
  | nil => intro acc; simp [orL]
  | cons p ps ih =>
    intro acc
    rw [List.foldl_cons, ih, List.map_cons, orL, Nat.lor_assoc]

/-- The first fourteen entries of the render table, up to IGNORED. -/
def ebn1 : List (Nat × List Char) :=
  [(IN_ACCESS, s2l "ACCESS"),
   (IN_MODIFY, s2l "MODIFY"),
   (IN_ATTRIB, s2l "ATTRIB"),
   (IN_CLOSE_WRITE, s2l "CLOSE_WRITE"),
   (IN_CLOSE_NOWRITE, s2l "CLOSE_NOWRITE"),
   (IN_OPEN, s2l "OPEN"),
   (IN_MOVED_FROM, s2l "MOVED_FROM"),
   (IN_MOVED_TO, s2l "MOVED_TO"),
   (IN_CREATE, s2l "CREATE"),
   (IN_DELETE, s2l "DELETE"),
   (IN_DELETE_SELF, s2l "DELETE_SELF"),
   (IN_UNMOUNT, s2l "UNMOUNT"),
   (IN_Q_OVERFLOW, s2l "Q_OVERFLOW"),
   (IN_IGNORED, s2l "IGNORED")]

theorem ebn_split : eventBitNames = ebn1 ++
    [(IN_CLOSE, s2l "CLOSE"), (IN_MOVE_SELF, s2l "MOVE_SELF"),
     (IN_ISDIR, s2l "ISDIR"), (IN_ONESHOT, s2l "ONESHOT")] := rfl

theorem ebn1_fst_prim : ∀ p ∈ ebn1, p.1 ∈ primitiveBits := by decide

theorem ebn1_fst : ebn1.map (fun p => p.1) =
    [IN_ACCESS, IN_MODIFY, IN_ATTRIB, IN_CLOSE_WRITE, IN_CLOSE_NOWRITE,
     IN_OPEN, IN_MOVED_FROM, IN_MOVED_TO, IN_CREATE, IN_DELETE,
     IN_DELETE_SELF, IN_UNMOUNT, IN_Q_OVERFLOW, IN_IGNORED] := rfl

theorem primitiveBits_split : primitiveBits =
    [IN_ACCESS, IN_MODIFY, IN_ATTRIB, IN_CLOSE_WRITE, IN_CLOSE_NOWRITE,
     IN_OPEN, IN_MOVED_FROM, IN_MOVED_TO, IN_CREATE, IN_DELETE,
     IN_DELETE_SELF, IN_UNMOUNT, IN_Q_OVERFLOW, IN_IGNORED]
       ++ [IN_MOVE_SELF] := rfl

/-- Shape of the selected render entries for the OR of a set of
primitive kind bits. -/
theorem sel_shape {ks : List Nat} (hsub : ∀ k ∈ ks, k ∈ primitiveBits) :
    eventBitNames.filter (fun p => p.1 &&& orL ks ≠ 0)
      = ebn1.filter (fun p => decide (p.1 ∈ ks))
        ++ ((if IN_CLOSE_WRITE ∈ ks ∨ IN_CLOSE_NOWRITE ∈ ks
            then [(IN_CLOSE, s2l "CLOSE")] else [])
          ++ (if IN_MOVE_SELF ∈ ks then [(IN_MOVE_SELF, s2l "MOVE_SELF")] else [])) := by
  rw [ebn_split, List.filter_append]
  have h1 : ebn1.filter (fun p => p.1 &&& orL ks ≠ 0)
      = ebn1.filter (fun p => decide (p.1 ∈ ks)) := by
    refine List.filter_congr ?_
    intro p hp
    exact decide_eq_decide.mpr (single_sel hsub (ebn1_fst_prim p hp))
  rw [h1]
  congr 1
  rw [List.filter_cons, List.filter_cons, List.filter_cons, List.filter_cons,
    List.filter_nil]
  have hcl : (decide (IN_CLOSE &&& orL ks ≠ 0))
      = decide (IN_CLOSE_WRITE ∈ ks ∨ IN_CLOSE_NOWRITE ∈ ks) :=
    decide_eq_decide.mpr (close_sel hsub)
  have hmv : (decide (IN_MOVE_SELF &&& orL ks ≠ 0)) = decide (IN_MOVE_SELF ∈ ks) :=
    decide_eq_decide.mpr (single_sel hsub (by decide))
  have hid : (decide (IN_ISDIR &&& orL ks ≠ 0)) = false := by
    simp [isdir_sel hsub]
  have hon : (decide (IN_ONESHOT &&& orL ks ≠ 0)) = false := by
    simp [oneshot_sel hsub]
  rw [hcl, hmv, hid, hon]
  by_cases h1 : IN_CLOSE_WRITE ∈ ks ∨ IN_CLOSE_NOWRITE ∈ ks
  · rw [if_pos (by simpa using h1), if_pos h1]
    by_cases h2 : IN_MOVE_SELF ∈ ks
    · rw [if_pos (by simpa using h2), if_pos h2]
      simp
    · rw [if_neg (by simpa using h2), if_neg h2]
      simp
  · rw [if_neg (by simpa using h1), if_neg h1]
    by_cases h2 : IN_MOVE_SELF ∈ ks
    · rw [if_pos (by simpa using h2), if_pos h2]
      simp
    · rw [if_neg (by simpa using h2), if_neg h2]
      simp

theorem render_eq_sepJoin {m : Nat} {sep : Char}
    (hne : eventBitNames.filter (fun p => p.1 &&& m ≠ 0) ≠ []) :
    inotifytools_event_to_str_sep m sep
      = sepJoin sep
          ((eventBitNames.filter (fun p => p.1 &&& m ≠ 0)).map (fun p => p.2)) := by
  simp only [inotifytools_event_to_str_sep, foldGuard_eq, List.nil_append]
  have hm2 : ((eventBitNames.filter (fun p => p.1 &&& m ≠ 0)).map
      (fun p => sep :: p.2)).flatten
      = preJoin sep ((eventBitNames.filter (fun p => p.1 &&& m ≠ 0)).map
          (fun p => p.2)) := by
    rw [preJoin, List.map_map]
    rfl
  rw [hm2]
  cases hts : (eventBitNames.filter (fun p => p.1 &&& m ≠ 0)).map (fun p => p.2) with
  | nil => exact absurd (List.map_eq_nil_iff.mp hts) hne
  | cons t ts =>
    rw [preJoin_cons, if_neg (by simp)]
    rfl

/-- C9 (amended): for every non-empty subset of the named single-bit
event kinds that contains either both or neither of the two close
kinds, rendering the mask with separator comma and parsing the result
back yields the same mask.  (As stated, for *every* non-empty subset,
the claim fails: a mask holding exactly one of CLOSE_WRITE /
CLOSE_NOWRITE makes the renderer emit a spurious extra CLOSE token,
and parsing adds the missing close bit - see the counterexample.) -/
theorem C9_codec_roundtrip_amended (ks : List Nat) (hne : ks ≠ [])
    (hsub : ∀ k ∈ ks, k ∈ primitiveBits)
    (hcl : IN_CLOSE_WRITE ∈ ks ↔ IN_CLOSE_NOWRITE ∈ ks) :
    inotifytools_str_to_event_sep
      (inotifytools_event_to_str_sep (orL ks) ',') ',' = some (orL ks) := by
  obtain ⟨k, hk⟩ := List.exists_mem_of_ne_nil ks hne
  have hkp : k ∈ primitiveBits := hsub k hk
  have hep : ∀ b ∈ primitiveBits, ∃ p ∈ eventBitNames, p.1 = b := by decide
  obtain ⟨p0, hp0e, hp0k⟩ := hep k hkp
  have hp0sel : p0 ∈ eventBitNames.filter (fun p => p.1 &&& orL ks ≠ 0) := by
    refine List.mem_filter.mpr ⟨hp0e, ?_⟩
    simp only [decide_eq_true_eq]
    rw [hp0k]
    exact (single_sel hsub hkp).mpr hk
  have hselne : eventBitNames.filter (fun p => p.1 &&& orL ks ≠ 0) ≠ [] :=
    List.ne_nil_of_mem hp0sel
  have htokgood : ∀ q ∈ (eventBitNames.filter
      (fun p => p.1 &&& orL ks ≠ 0)).map (fun p => (p.2, p.1)),
      goodTok ',' q := by
    intro q hq
    obtain ⟨p, hpsel, hpq⟩ := List.mem_map.mp hq
    have hpe := List.mem_of_mem_filter hpsel
    rcases vocab_facts p hpe with ⟨h1, h2, h3, h4⟩
    subst hpq
    exact ⟨h1, h2, h3, h4⟩
  have hinput_ne : sepJoin ','
      ((eventBitNames.filter (fun p => p.1 &&& orL ks ≠ 0)).map
        (fun p => p.2)) ≠ [] := by
    cases hs : eventBitNames.filter (fun p => p.1 &&& orL ks ≠ 0) with
    | nil => exact absurd hs hselne
    | cons q qs =>
      rw [List.map_cons]
      have hqe : q ∈ eventBitNames :=
        List.mem_of_mem_filter (hs ▸ List.mem_cons_self _ _)
      exact sepJoin_ne_nil (vocab_facts q hqe).2.2.1
  rw [render_eq_sepJoin hselne]
  unfold inotifytools_str_to_event_sep
  rw [if_neg (by decide), if_neg hinput_ne]
  have hps_ne : (eventBitNames.filter (fun p => p.1 &&& orL ks ≠ 0)).map
      (fun p => (p.2, p.1)) ≠ [] := by
    intro h
    exact hselne (List.map_eq_nil_iff.mp h)
  have hrun := strToEventLoop_sepJoin
    ((eventBitNames.filter (fun p => p.1 &&& orL ks ≠ 0)).map
      (fun p => (p.2, p.1))) 0 hps_ne htokgood
  have hmapeq : ((eventBitNames.filter (fun p => p.1 &&& orL ks ≠ 0)).map
      (fun p => (p.2, p.1))).map (fun q => q.1)
      = (eventBitNames.filter (fun p => p.1 &&& orL ks ≠ 0)).map
          (fun p => p.2) := by
    rw [List.map_map]
    rfl
  rw [hmapeq] at hrun
  rw [hrun]
  congr 1
  rw [List.foldl_map, foldl_lor_orL, Nat.zero_or]
  have hsame : ∀ x, x ∈ ks ↔
      x ∈ primitiveBits.filter (fun b => decide (b ∈ ks)) := by
    intro x
    rw [List.mem_filter]
    simp only [decide_eq_true_eq]
    exact ⟨fun h => ⟨hsub x h, h⟩, fun h => h.2⟩
  have hmdec : orL ks
      = orL ((ebn1.map (fun p => p.1)).filter (fun b => decide (b ∈ ks)))
        ||| orL (List.filter (fun b => decide (b ∈ ks)) [IN_MOVE_SELF]) := by
    have h0 : orL ks = orL (primitiveBits.filter (fun b => decide (b ∈ ks))) :=
      orL_eq_of_same_mem hsame
    rw [h0, primitiveBits_split, List.filter_append, orL_append, ebn1_fst]
  rw [sel_shape hsub, List.map_append, orL_append, List.map_append, orL_append,
    map_fst_filter_pairs (fun b => decide (b ∈ ks)),
    apply_ite (List.map (fun p : Nat × List Char => p.1)),
    apply_ite (List.map (fun p : Nat × List Char => p.1))]
  simp only [List.map_cons, List.map_nil]
  have hmvfilter : List.filter (fun b => decide (b ∈ ks)) [IN_MOVE_SELF]
      = if IN_MOVE_SELF ∈ ks then [IN_MOVE_SELF] else [] := by
    rw [List.filter_cons, List.filter_nil]
    by_cases hmv : IN_MOVE_SELF ∈ ks
    · rw [if_pos (by simpa using hmv), if_pos hmv]
    · rw [if_neg (by simpa using hmv), if_neg hmv]
  rw [hmvfilter] at hmdec
  by_cases hcw : IN_CLOSE_WRITE ∈ ks
  · have hcn : IN_CLOSE_NOWRITE ∈ ks := hcl.mp hcw
    rw [if_pos (Or.inl hcw)]
    have horclose : orL [IN_CLOSE] = IN_CLOSE := Nat.or_zero _
    rw [horclose, lor_left_comm, ← hmdec]
    show (IN_CLOSE_WRITE ||| IN_CLOSE_NOWRITE) ||| orL ks = orL ks
    rw [Nat.lor_assoc, orL_absorb hcn, orL_absorb hcw]
  · have hcn : IN_CLOSE_NOWRITE ∉ ks := fun h => hcw (hcl.mpr h)
    rw [if_neg (by intro h; rcases h with h | h; exact hcw h; exact hcn h)]
    have horlnil : orL ([] : List Nat) = 0 := rfl
    rw [horlnil, Nat.zero_or, ← hmdec]

/-- Witness for C9: the singleton subset holding ACCESS round-trips. -/
theorem C9_codec_roundtrip_witness :
    inotifytools_str_to_event_sep
      (inotifytools_event_to_str_sep (orL [IN_ACCESS]) ',') ','
      = some (orL [IN_ACCESS]) :=
  C9_codec_roundtrip_amended [IN_ACCESS] (by decide) (by decide) (by decide)

/-- Counterexample to C9 as stated: the mask holding exactly the
primitive kind CLOSE_WRITE (0x8) renders as CLOSE_WRITE,CLOSE because
the renderer also matches the composite IN_CLOSE bit test, and parsing
that string yields 0x18 (both close bits), not 0x8. -/
theorem C9_codec_roundtrip_counterexample :
    inotifytools_event_to_str_sep IN_CLOSE_WRITE ','
        = s2l "CLOSE_WRITE,CLOSE"
      ∧ inotifytools_str_to_event_sep
          (inotifytools_event_to_str_sep IN_CLOSE_WRITE ',') ','
          = some 24
      ∧ IN_CLOSE_WRITE ∈ primitiveBits
      ∧ some (24 : Nat) ≠ some IN_CLOSE_WRITE := by
  have hrender : inotifytools_event_to_str_sep IN_CLOSE_WRITE ','
      = s2l "CLOSE_WRITE,CLOSE" := by decide
  refine ⟨hrender, ?_, by decide, by decide⟩
  rw [hrender]
  unfold inotifytools_str_to_event_sep
  rw [if_neg (by decide), if_neg (by decide)]
  have hsplit : s2l "CLOSE_WRITE,CLOSE"
      = s2l "CLOSE_WRITE" ++ ',' :: s2l "CLOSE" := by decide
  rw [hsplit,
    strToEventLoop_step 0 (by decide)
      (show onestr_to_event (s2l "CLOSE_WRITE") = some IN_CLOSE_WRITE by decide)
      (by decide) (by decide),
    strToEventLoop_last _ (by decide)
      (show onestr_to_event (s2l "CLOSE") = some 24 by decide) (by decide)]
  decide

instance goodTokDecidable (sep : Char) (p : List Char × Nat) :
    Decidable (goodTok sep p) := by
  unfold goodTok
  infer_instance

/-- C10: in inotifytools_str_to_event_sep, an empty token - one
produced by a trailing separator, a leading separator, or two adjacent
separators - makes the whole call return 0 (the empty mask),
discarding the events accumulated from the earlier valid tokens. -/
theorem C10_empty_token_returns_zero (sep : Char)
    (ps : List (List Char × Nat)) (rest : List (List Char))
    (hsep : (s2l "_abcdefghijklmnopqrstuvwxyzABCDEFGHIJKLMNOPQRSTUVWXYZ").contains sep
      = false)
    (hgood : ∀ p ∈ ps, goodTok sep p) :
    inotifytools_str_to_event_sep
      (sepJoin sep (ps.map (fun p => p.1) ++ [] :: rest)) sep = some 0 := by
  unfold inotifytools_str_to_event_sep
  rw [if_neg (by rw [hsep]; exact Bool.false_ne_true)]
  by_cases hj : sepJoin sep (ps.map (fun p => p.1) ++ [] :: rest) = []
  · rw [if_pos hj]
  · rw [if_neg hj]
    exact strToEventLoop_empty_tok ps 0 rest hgood

/-- Witness for C10: parsing MODIFY, (a valid token then a trailing
comma) returns the empty mask 0, not the MODIFY bit. -/
theorem C10_empty_token_witness :
    inotifytools_str_to_event_sep (s2l "MODIFY,") ',' = some 0 := by
  have h := C10_empty_token_returns_zero ',' [(s2l "MODIFY", IN_MODIFY)] []
    (by decide) (by decide)
  have he : sepJoin ','
      (([(s2l "MODIFY", IN_MODIFY)].map (fun p => p.1)) ++ [] :: [])
      = s2l "MODIFY," := by decide
  rw [he] at h
  exact h

/-!
## Stream reader timeout handling (claim C2)

inotifytools_next_events drives its wait through select(): a NULL
timeout pointer blocks indefinitely, a zero timeval polls, a positive
timeval bounds the wait.  The code builds the pointer as
read_timeout_ptr = ( timeout <= 0 ? NULL : &read_timeout ).
-/

inductive WaitMode where
  | blockIndefinitely
  | poll
  | boundedWait (seconds : Int)
deriving DecidableEq

/-- The timeout pointer handed to select() (none models NULL), exactly
as built at inotifytools.c:1217. -/
def selectReadTimeout (timeout : Int) : Option Int :=
  if timeout ≤ 0 then none else some timeout

/-- The wait behaviour select() gives for that pointer. -/
def waitModeOf (timeout : Int) : WaitMode :=
  match selectReadTimeout timeout with
  | none => WaitMode.blockIndefinitely
  | some s => if s = 0 then WaitMode.poll else WaitMode.boundedWait s

/-- Modelled from the spec: the wait behaviour the claim (and the
function's own documentation) assigns to each timeout value: negative
blocks, zero polls without blocking, positive bounds the wait. -/
def specWaitMode (timeout : Int) : WaitMode :=
  if timeout < 0 then WaitMode.blockIndefinitely
  else if timeout = 0 then WaitMode.poll
  else WaitMode.boundedWait timeout

/-- C2: the code disagrees with the claim exactly at timeout = 0: the
claim (and the doc comment of inotifytools_next_events) says a zero
timeout polls the fd without blocking, but the code maps every
timeout <= 0 to a NULL select timeout, so a zero timeout blocks
indefinitely.  Negative and positive timeouts behave as claimed. -/
theorem C2_timeout_code_bug :
    (∀ t : Int, (waitModeOf t = specWaitMode t) ↔ t ≠ 0)
      ∧ waitModeOf 0 = WaitMode.blockIndefinitely
      ∧ specWaitMode 0 = WaitMode.poll := by
  refine ⟨?_, by decide, by decide⟩
  intro t
  constructor
  · intro h ht
    subst ht
    simp [waitModeOf, selectReadTimeout, specWaitMode] at h
  · intro ht
    rcases lt_trichotomy t 0 with h | h | h
    · have h1 : t ≤ 0 := le_of_lt h
      simp [waitModeOf, selectReadTimeout, specWaitMode, h, h1]
    · exact absurd h ht
    · have h1 : ¬ t ≤ 0 := not_le_of_gt h
      have h2 : ¬ t < 0 := by omega
      have h3 : t ≠ 0 := ht
      simp [waitModeOf, selectReadTimeout, specWaitMode, h1, h2, h3]

/-!
## Formatter (inotifytools_snprintf, claim C4)

The model tracks, besides the return value and errno, whether every
byte stored into the caller's buffer landed at an index < size
(inBounds).  A strncpy( &out[ind], src, size - ind ) writes exactly
size - ind bytes at indices ind .. size-1 (copy plus zero padding),
all inside the buffer, because the loop guard ind < size - 1 held; the
in-bounds status can only be broken by the single-byte stores, namely
the terminating null out[ind] = 0 written after the loop at the
unclamped index ind.
-/

def MAX_STRLEN : Nat := 4096

def EINVAL : Nat := 22
def EMSGSIZE : Nat := 90

structure SnpRes where
  ret : Int
  err : Nat
  inBounds : Bool
deriving DecidableEq

/-- The formatting loop of inotifytools_snprintf over the remaining
format string, carrying the output cursor ind and the in-bounds flag.
filename is the %w substitution (none when the wd resolves to no
watch), eventname the %f substitution (none when event->len == 0),
timestr the strftime result for %T (none models strftime failure). -/
def snprintfLoop (size : Int) (filename eventname : Option (List Char))
    (mask : Nat) (timefmtSet : Bool) (timestr : Option (List Char)) :
    List Char → Nat → Bool → SnpRes
  | [], ind, ok => ⟨(ind : Int) - 1, 0, ok && decide ((ind : Int) < size)⟩
  | '%' :: [], ind, ok =>
    if ¬((ind : Int) < size - 1) then
      ⟨(ind : Int) - 1, 0, ok && decide ((ind : Int) < size)⟩
    else ⟨(ind : Int), EINVAL, ok⟩
  | '%' :: '%' :: rest2, ind, ok =>
    if ¬((ind : Int) < size - 1) then
      ⟨(ind : Int) - 1, 0, ok && decide ((ind : Int) < size)⟩
    else
      snprintfLoop size filename eventname mask timefmtSet timestr rest2
        (ind + 1) (ok && decide ((ind : Int) < size))
  | '%' :: 'w' :: rest2, ind, ok =>
    if ¬((ind : Int) < size - 1) then
      ⟨(ind : Int) - 1, 0, ok && decide ((ind : Int) < size)⟩
    else
      match filename with
      | some f => snprintfLoop size filename eventname mask timefmtSet
          timestr rest2 (ind + f.length) ok
      | none => snprintfLoop size filename eventname mask timefmtSet
          timestr rest2 ind ok
  | '%' :: 'f' :: rest2, ind, ok =>
    if ¬((ind : Int) < size - 1) then
      ⟨(ind : Int) - 1, 0, ok && decide ((ind : Int) < size)⟩
    else
      match eventname with
      | some f => snprintfLoop size filename eventname mask timefmtSet
          timestr rest2 (ind + f.length) ok
      | none => snprintfLoop size filename eventname mask timefmtSet
          timestr rest2 ind ok
  | '%' :: 'e' :: rest2, ind, ok =>
    if ¬((ind : Int) < size - 1) then
      ⟨(ind : Int) - 1, 0, ok && decide ((ind : Int) < size)⟩
    else
      snprintfLoop size filename eventname mask timefmtSet timestr rest2
        (ind + (inotifytools_event_to_str_sep mask ',').length) ok
  | '%' :: 'T' :: rest2, ind, ok =>
    if ¬((ind : Int) < size - 1) then
      ⟨(ind : Int) - 1, 0, ok && decide ((ind : Int) < size)⟩
    else
      if timefmtSet then
        match timestr with
        | none => ⟨(ind : Int), EINVAL, ok⟩
        | some ts => snprintfLoop size filename eventname mask timefmtSet
            timestr rest2 (ind + ts.length) ok
      else
        snprintfLoop size filename eventname mask timefmtSet timestr rest2
          ind ok
  | '%' :: c1 :: 'e' :: rest3, ind, ok =>
    if ¬((ind : Int) < size - 1) then
      ⟨(ind : Int) - 1, 0, ok && decide ((ind : Int) < size)⟩
    else
      snprintfLoop size filename eventname mask timefmtSet timestr rest3
        (ind + (inotifytools_event_to_str_sep mask c1).length) ok
  | '%' :: c1 :: rest2, ind, ok =>
    if ¬((ind : Int) < size - 1) then
      ⟨(ind : Int) - 1, 0, ok && decide ((ind : Int) < size)⟩
    else
      if ind < MAX_STRLEN then
        if ind + 1 < MAX_STRLEN then
          snprintfLoop size filename eventname mask timefmtSet timestr rest2
            (ind + 2)
            ((ok && decide ((ind : Int) < size)) && decide ((ind : Int) + 1 < size))
        else
          snprintfLoop size filename eventname mask timefmtSet timestr rest2
            (ind + 1) (ok && decide ((ind : Int) < size))
      else
        snprintfLoop size filename eventname mask timefmtSet timestr rest2
          ind ok
  | c :: rest, ind, ok =>
    if ¬((ind : Int) < size - 1) then
      ⟨(ind : Int) - 1, 0, ok && decide ((ind : Int) < size)⟩
    else
      snprintfLoop size filename eventname mask timefmtSet timestr rest
        (ind + 1) (ok && decide ((ind : Int) < size))

/-- inotifytools_snprintf: a NULL or empty format is rejected with
EINVAL and -1; a format longer than 4096 characters (or a size larger
than 4096) is rejected with EMSGSIZE and -1; otherwise the loop runs
with cursor 0. -/
def inotifytools_snprintf (size : Int) (filename eventname : Option (List Char))
    (mask : Nat) (timefmtSet : Bool) (timestr : Option (List Char))
    (fmt : Option (List Char)) : SnpRes :=
  match fmt with
  | none => ⟨-1, EINVAL, true⟩
  | some f =>
    if f = [] then ⟨-1, EINVAL, true⟩
    else if (f.length : Int) > (MAX_STRLEN : Int) ∨ size > (MAX_STRLEN : Int) then
      ⟨-1, EMSGSIZE, true⟩
    else snprintfLoop size filename eventname mask timefmtSet timestr f 0 true

/-- C4: the up-front rejections hold as claimed (empty format and
over-length format return -1), but the bounded-write guarantee does
not: with size = 6, format %w and a watch path of twelve characters,
the expansion pushes the cursor to 12 and the terminating null is
stored at index 12, outside the six-byte buffer (inBounds = false),
overrunning the caller's buffer; the claim says at most size bytes are
ever written. -/
theorem C4_snprintf_overrun :
    inotifytools_snprintf 6 (some (s2l "/tmp/longer/")) none IN_MODIFY false none
        (some (s2l "%w"))
      = ⟨11, 0, false⟩
    ∧ inotifytools_snprintf 100 (some (s2l "/tmp/")) none IN_MODIFY false none
        (some [])
      = ⟨-1, EINVAL, true⟩
    ∧ inotifytools_snprintf 100 (some (s2l "/tmp/")) none IN_MODIFY false none
        none
      = ⟨-1, EINVAL, true⟩
    ∧ inotifytools_snprintf 100 (some (s2l "/tmp/")) none IN_MODIFY false none
        (some (List.replicate 4097 'a'))
      = ⟨-1, EMSGSIZE, true⟩ := by
  refine ⟨by decide, by decide, by decide, ?_⟩
  have h1 : (List.replicate 4097 'a' : List Char) ≠ [] := by
    intro h
    have h0 := congrArg List.length h
    rw [List.length_replicate] at h0
    simp at h0
  have h2 : ((List.replicate 4097 'a' : List Char).length : Int)
      > (MAX_STRLEN : Int) := by
    rw [List.length_replicate]
    decide
  unfold inotifytools_snprintf
  dsimp only
  rw [if_neg h1, if_pos (Or.inl h2)]

/-!
## Stream reader filter and statistics (claim C7)

The RETURN macro of inotifytools_next_events first renders the
candidate event with the fixed template %w%f and tests the compiled
regex against it; on a match it jumps back to the wait (the event is
neither returned nor counted), otherwise it calls record_stats when
statistics collection is enabled and returns the event.  The
suppression loop over a stream of candidate events is modelled by
nextEventsModel; the compiled regex is modelled as a predicate on the
rendered name.
-/

structure inotify_event where
  wd : Int
  mask : Nat
  cookie : Nat
  name : List Char
deriving DecidableEq

def inotifytools_filename_from_wd (st : InoState) (wd : Int) :
    Option (List Char) :=
  (watch_from_wd st wd).bind (fun i => (heapFind st.heap i).map (fun w => w.filename))

/-- The %w%f rendering used for the regex test: watch path (empty when
the wd resolves to no watch) followed by the event name (empty when
event->len == 0). -/
def matchName (st : InoState) (e : inotify_event) : List Char :=
  (inotifytools_filename_from_wd st e.wd).getD [] ++ e.name

/-- record_stats: resolve the watch (an unresolved wd records
nothing), bump the per-watch counter and the global counter of every
kind bit present in the mask, then both totals. -/
def record_stats (st : InoState) (e : inotify_event) : InoState :=
  match watch_from_wd st e.wd with
  | none => st
  | some i =>
    let upd : watch → watch := fun w =>
      let w := if IN_ACCESS &&& e.mask ≠ 0 then { w with hit_access := w.hit_access + 1 } else w
      let w := if IN_MODIFY &&& e.mask ≠ 0 then { w with hit_modify := w.hit_modify + 1 } else w
      let w := if IN_ATTRIB &&& e.mask ≠ 0 then { w with hit_attrib := w.hit_attrib + 1 } else w
      let w := if IN_CLOSE_WRITE &&& e.mask ≠ 0 then { w with hit_close_write := w.hit_close_write + 1 } else w
      let w := if IN_CLOSE_NOWRITE &&& e.mask ≠ 0 then { w with hit_close_nowrite := w.hit_close_nowrite + 1 } else w
      let w := if IN_OPEN &&& e.mask ≠ 0 then { w with hit_open := w.hit_open + 1 } else w
      let w := if IN_MOVED_FROM &&& e.mask ≠ 0 then { w with hit_moved_from := w.hit_moved_from + 1 } else w
      let w := if IN_MOVED_TO &&& e.mask ≠ 0 then { w with hit_moved_to := w.hit_moved_to + 1 } else w
      let w := if IN_CREATE &&& e.mask ≠ 0 then { w with hit_create := w.hit_create + 1 } else w
      let w := if IN_DELETE &&& e.mask ≠ 0 then { w with hit_delete := w.hit_delete + 1 } else w
      let w := if IN_DELETE_SELF &&& e.mask ≠ 0 then { w with hit_delete_self := w.hit_delete_self + 1 } else w
      let w := if IN_UNMOUNT &&& e.mask ≠ 0 then { w with hit_unmount := w.hit_unmount + 1 } else w
      let w := if IN_MOVE_SELF &&& e.mask ≠ 0 then { w with hit_move_self := w.hit_move_self + 1 } else w
      { w with hit_total := w.hit_total + 1 }
    { st with
      heap := heapUpdate st.heap i upd,
      num_access := st.num_access + (if IN_ACCESS &&& e.mask ≠ 0 then 1 else 0),
      num_modify := st.num_modify + (if IN_MODIFY &&& e.mask ≠ 0 then 1 else 0),
      num_attrib := st.num_attrib + (if IN_ATTRIB &&& e.mask ≠ 0 then 1 else 0),
      num_close_write := st.num_close_write + (if IN_CLOSE_WRITE &&& e.mask ≠ 0 then 1 else 0),
      num_close_nowrite := st.num_close_nowrite + (if IN_CLOSE_NOWRITE &&& e.mask ≠ 0 then 1 else 0),
      num_open := st.num_open + (if IN_OPEN &&& e.mask ≠ 0 then 1 else 0),
      num_moved_from := st.num_moved_from + (if IN_MOVED_FROM &&& e.mask ≠ 0 then 1 else 0),
      num_moved_to := st.num_moved_to + (if IN_MOVED_TO &&& e.mask ≠ 0 then 1 else 0),
      num_create := st.num_create + (if IN_CREATE &&& e.mask ≠ 0 then 1 else 0),
      num_delete := st.num_delete + (if IN_DELETE &&& e.mask ≠ 0 then 1 else 0),
      num_delete_self := st.num_delete_self + (if IN_DELETE_SELF &&& e.mask ≠ 0 then 1 else 0),
      num_unmount := st.num_unmount + (if IN_UNMOUNT &&& e.mask ≠ 0 then 1 else 0),
      num_move_self := st.num_move_self + (if IN_MOVE_SELF &&& e.mask ≠ 0 then 1 else 0),
      num_total := st.num_total + 1 }

/-- inotifytools_initialize_stats: reset the per-watch counters when a
collection round was already active (rbwalk with empty_stats), zero
the global counters, mark collection active. -/
def empty_stats (w : watch) : watch :=
  { wd := w.wd, filename := w.filename }

def inotifytools_initialize_stats (st : InoState) : InoState :=
  { st with
    heap := if st.collect_stats then
        st.heap.map (fun p => (p.1, empty_stats p.2))
      else st.heap,
    collect_stats := true,
    num_access := 0, num_modify := 0, num_attrib := 0,
    num_close_nowrite := 0, num_close_write := 0, num_open := 0,
    num_move_self := 0, num_moved_from := 0, num_moved_to := 0,
    num_create := 0, num_delete := 0, num_delete_self := 0,
    num_unmount := 0, num_total := 0 }

/-- The RETURN macro for one candidate event: suppress on a regex
match (no return, no state change), otherwise count (when collection
is active) and return. -/
def deliverEvent (filter : Option (List Char → Bool)) (st : InoState)
    (e : inotify_event) : Option inotify_event × InoState :=
  match filter with
  | some rx =>
    if rx (matchName st e) then (none, st)
    else if st.collect_stats then (some e, record_stats st e) else (some e, st)
  | none =>
    if st.collect_stats then (some e, record_stats st e) else (some e, st)

/-- The suppression loop of inotifytools_next_events over a stream of
candidate events: suppressed events restart the wait (modelled as
moving to the next candidate), the first unsuppressed one is
returned. -/
def nextEventsModel (filter : Option (List Char → Bool)) :
    InoState → List inotify_event → Option inotify_event × InoState
  | st, [] => (none, st)
  | st, e :: es =>
    match deliverEvent filter st e with
    | (some r, st2) => (some r, st2)
    | (none, st2) => nextEventsModel filter st2 es

theorem record_stats_counts {st : InoState} {e : inotify_event} {i : Nat}
    {w : watch} (hf : watch_from_wd st e.wd = some i)
    (hw : heapFind st.heap i = some w) :
    (record_stats st e).num_total = st.num_total + 1
    ∧ (heapFind (record_stats st e).heap i).map (fun w => w.hit_total)
        = some (w.hit_total + 1) := by
  unfold record_stats
  rw [hf]
  constructor
  · rfl
  · simp only [heapFind_update_self, hw, Option.map_some']
    congr 1
    simp only [apply_ite (fun w : watch => w.hit_total)]
    simp [ite_self]

/-- C7: with a filter installed and statistics collection enabled, the
stream reader never returns an event whose %w%f rendering matches the
filter; suppressed events change no state at all (in particular they
are not counted); the returned event is one of the delivered
candidates, reached after a run of suppressed ones, and the final
state is exactly one record_stats application on the returned event -
which, whenever the event's wd resolves to a live watch, bumps that
watch's total hit counter and the global total counter exactly once. -/
theorem C7_filter_suppression (rx : List Char → Bool) :
    ∀ (es : List inotify_event) (st : InoState) (out : inotify_event)
      (st2 : InoState),
    st.collect_stats = true →
    nextEventsModel (some rx) st es = (some out, st2) →
    rx (matchName st out) = false
    ∧ out ∈ es
    ∧ st2 = record_stats st out
    ∧ (∀ i w, watch_from_wd st out.wd = some i → heapFind st.heap i = some w →
        st2.num_total = st.num_total + 1
        ∧ (heapFind st2.heap i).map (fun w => w.hit_total)
            = some (w.hit_total + 1)) := by
  intro es
  induction es with
  | nil =>
    intro st out st2 _ h
    simp [nextEventsModel] at h
  | cons e es ih =>
    intro st out st2 hcs h
    rw [nextEventsModel] at h
    by_cases hrx : rx (matchName st e) = true
    · rw [show deliverEvent (some rx) st e = (none, st) by
        simp [deliverEvent, hrx]] at h
      rcases ih st out st2 hcs h with ⟨h1, h2, h3, h4⟩
      exact ⟨h1, List.mem_cons_of_mem _ h2, h3, h4⟩
    · have hrxf : rx (matchName st e) = false := by
        cases hb : rx (matchName st e)
        · rfl
        · exact absurd hb hrx
      rw [show deliverEvent (some rx) st e = (some e, record_stats st e) by
        simp [deliverEvent, hrxf, hcs]] at h
      simp only [Prod.mk.injEq, Option.some.injEq] at h
      rcases h with ⟨he, hst⟩
      subst he
      subst hst
      refine ⟨hrxf, List.mem_cons_self _ _, rfl, ?_⟩
      intro i w hf hw
      exact record_stats_counts hf hw

def c7State : InoState :=
  inotifytools_initialize_stats
    (create_watch initialState 1 (some (s2l "/tmp/")))

def c7Skip : inotify_event := ⟨1, IN_CREATE, 0, s2l "skip"⟩

def c7Keep : inotify_event := ⟨1, IN_CREATE, 0, s2l "keep"⟩

/-- Witness for C7: with a filter matching /tmp/skip and events for
/tmp/skip then /tmp/keep delivered, only the /tmp/keep event reaches
the caller and only it is counted (per-watch and global totals go
from 0 to 1). -/
theorem C7_filter_suppression_witness :
    (fun s => s == s2l "/tmp/skip") (matchName c7State c7Keep) = false
    ∧ c7Keep ∈ [c7Skip, c7Keep]
    ∧ (nextEventsModel (some (fun s => s == s2l "/tmp/skip")) c7State
        [c7Skip, c7Keep]).2 = record_stats c7State c7Keep
    ∧ (∀ i w, watch_from_wd c7State c7Keep.wd = some i →
        heapFind c7State.heap i = some w →
        (nextEventsModel (some (fun s => s == s2l "/tmp/skip")) c7State
          [c7Skip, c7Keep]).2.num_total = c7State.num_total + 1
        ∧ (heapFind (nextEventsModel (some (fun s => s == s2l "/tmp/skip"))
            c7State [c7Skip, c7Keep]).2.heap i).map (fun w => w.hit_total)
            = some (w.hit_total + 1)) := by
  have h := C7_filter_suppression (fun s => s == s2l "/tmp/skip")
    [c7Skip, c7Keep] c7State c7Keep
    (nextEventsModel (some (fun s => s == s2l "/tmp/skip")) c7State
      [c7Skip, c7Keep]).2
    (by decide) (by decide)
  exact ⟨h.1, h.2.1, h.2.2.1, h.2.2.2⟩

/-!
## Recursive watcher (claim C8)

The filesystem seen by inotifytools_watch_recursively_with_exclude is
modelled as a tree: a node is a plain file, an entry whose lstat64
fails with some errno, a directory whose opendir fails with some
errno, or a directory given as the chain of its readdir entries
(dirCons name child rest; dirNil ends the chain, at which point the
directory itself is watched, as the C code does after its loop).
Watch establishment (inotify_add_watch) is assumed to succeed and is
recorded as the list of watched paths in establishment order.  The
debug hash table (hadd/hfind/dir_stack) feeds no observable behaviour
and is not modelled.
-/

def EACCES : Nat := 13
def ENOENT : Nat := 2
def ENOTDIR : Nat := 20
def ELOOP : Nat := 40

inductive FS where
  | file : FS
  | statErr (e : Nat) : FS
  | openErr (e : Nat) : FS
  | dirNil : FS
  | dirCons (name : List Char) (child : FS) (rest : FS) : FS
deriving DecidableEq

/-- Append a trailing slash unless one is present (the my_path
computation). -/
def ensureSlash (p : List Char) : List Char :=
  if p.getLast? = some '/' then p else p ++ ['/']

/-- The exclude-list test: an entry matches when, after stripping one
trailing slash from the exclude entry, the candidate path is exactly
that entry plus a slash. -/
def excludedDir (excl : List (List Char)) (next_file : List Char) : Bool :=
  excl.any (fun ex =>
    next_file == (if ex.getLast? = some '/' then ex.dropLast else ex) ++ ['/'])

/-- The lstat64 outcome of a directory entry: some e when lstat64
fails with errno e, none otherwise. -/
def statErrno : FS → Option Nat
  | FS.statErr e => some e
  | _ => none

/-- An entry that is not a directory (or is a symbolic link): the C
loop ignores it. -/
def isLeaf : FS → Bool
  | FS.file => true
  | _ => false

/-- inotifytools_watch_recursively_with_exclude.  Returns the watch
list (established paths appended in order), the success flag (the C 1
or 0) and the error code of an abort.  Entries named "." or ".." are
skipped before lstat64 runs; an lstat64 failure other than EACCES
aborts; descending into a subdirectory tolerates
EACCES/ENOENT/ELOOP failures; opendir failing with ENOTDIR watches
the path as a plain file; the directory itself is watched after its
entries, with a trailing slash. -/
def inotifytools_watch_recursively_with_exclude :
    List Char → FS → List (List Char) → List (List Char) →
    List (List Char) × Bool × Nat
  | path, FS.file, _, ws => (ws ++ [path], true, 0)
  | _, FS.statErr e, _, ws => (ws, false, e)
  | path, FS.openErr e, _, ws =>
    if e = ENOTDIR then (ws ++ [path], true, 0) else (ws, false, e)
  | path, FS.dirNil, _, ws => (ws ++ [ensureSlash path], true, 0)
  | path, FS.dirCons name child rest, excl, ws =>
    if name = s2l "." ∨ name = s2l ".." then
      inotifytools_watch_recursively_with_exclude path rest excl ws
    else
      match statErrno child with
      | some e =>
        if e = EACCES then
          inotifytools_watch_recursively_with_exclude path rest excl ws
        else (ws, false, e)
      | none =>
        if isLeaf child then
          inotifytools_watch_recursively_with_exclude path rest excl ws
        else if excludedDir excl (ensureSlash path ++ name ++ ['/']) then
          inotifytools_watch_recursively_with_exclude path rest excl ws
        else
          match inotifytools_watch_recursively_with_exclude
              (ensureSlash path ++ name ++ ['/']) child excl ws with
          | (w2, true, _) =>
            inotifytools_watch_recursively_with_exclude path rest excl w2
          | (w2, false, e) =>
            if e = EACCES ∨ e = ENOENT ∨ e = ELOOP then
              inotifytools_watch_recursively_with_exclude path rest excl w2
            else (w2, false, e)

/-- A subtree that can only produce swallowed errors: lstat failures
limited to EACCES, opendir failures limited to
ENOTDIR/EACCES/ENOENT/ELOOP, recursively. -/
def tolerableFS : FS → Bool
  | FS.file => true
  | FS.statErr e => e == EACCES
  | FS.openErr e => (e == ENOTDIR) || (e == EACCES) || (e == ENOENT) || (e == ELOOP)
  | FS.dirNil => true
  | FS.dirCons _ child rest => tolerableFS child && tolerableFS rest

/-- A well-formed directory entry chain. -/
def isChain : FS → Bool
  | FS.dirNil => true
  | FS.dirCons _ _ rest => isChain rest
  | _ => false

lemma statErrno_eq_some {c : FS} {e : Nat} (h : statErrno c = some e) :
    c = FS.statErr e := by
  cases c <;> simp [statErrno] at h
  rw [h]

/-- Watches established earlier are never removed: the resulting
watch list always extends the accumulator. -/
lemma walk_monotone : ∀ (fs : FS) (path : List Char) (excl ws : List (List Char)),
    ∃ t, (inotifytools_watch_recursively_with_exclude path fs excl ws).1 = ws ++ t := by
  intro fs
  induction fs with
  | file =>
    intro path excl ws
    exact ⟨[path], rfl⟩
  | statErr e =>
    intro path excl ws
    exact ⟨[], by simp [inotifytools_watch_recursively_with_exclude]⟩
  | openErr e =>
    intro path excl ws
    by_cases he : e = ENOTDIR
    · refine ⟨[path], ?_⟩
      simp only [inotifytools_watch_recursively_with_exclude]
      rw [if_pos he]
    · refine ⟨[], ?_⟩
      simp only [inotifytools_watch_recursively_with_exclude]
      rw [if_neg he]
      simp
  | dirNil =>
    intro path excl ws
    exact ⟨[ensureSlash path], rfl⟩
  | dirCons name child rest ihc ihr =>
    intro path excl ws
    simp only [inotifytools_watch_recursively_with_exclude]
    by_cases hn : name = s2l "." ∨ name = s2l ".."
    · rw [if_pos hn]
      exact ihr path excl ws
    · rw [if_neg hn]
      rcases hse : statErrno child with _ | e
      · dsimp only
        by_cases hl : isLeaf child = true
        · rw [if_pos hl]
          exact ihr path excl ws
        · rw [if_neg hl]
          by_cases hx : excludedDir excl (ensureSlash path ++ name ++ ['/']) = true
          · rw [if_pos hx]
            exact ihr path excl ws
          · rw [if_neg hx]
            obtain ⟨t1, ht1⟩ := ihc (ensureSlash path ++ name ++ ['/']) excl ws
            rcases hWeq : inotifytools_watch_recursively_with_exclude
                (ensureSlash path ++ name ++ ['/']) child excl ws with ⟨w2, ok, e⟩
            have hw2 : w2 = ws ++ t1 := by
              rw [hWeq] at ht1
              exact ht1
            cases ok
            · dsimp only
              by_cases htol : e = EACCES ∨ e = ENOENT ∨ e = ELOOP
              · rw [if_pos htol]
                obtain ⟨t2, ht2⟩ := ihr path excl w2
                exact ⟨t1 ++ t2, by rw [ht2, hw2, List.append_assoc]⟩
              · rw [if_neg htol]
                exact ⟨t1, hw2⟩
            · dsimp only
              obtain ⟨t2, ht2⟩ := ihr path excl w2
              exact ⟨t1 ++ t2, by rw [ht2, hw2, List.append_assoc]⟩
      · dsimp only
        by_cases he : e = EACCES
        · rw [if_pos he]
          exact ihr path excl ws
        · rw [if_neg he]
          exact ⟨[], by simp⟩

/-- On a tolerable subtree the walk either succeeds or fails with one
of the three errors the caller swallows. -/
lemma walk_tolerable : ∀ fs, tolerableFS fs = true →
    ∀ (path : List Char) (excl ws : List (List Char)),
    (inotifytools_watch_recursively_with_exclude path fs excl ws).2.1 = true ∨
    ((inotifytools_watch_recursively_with_exclude path fs excl ws).2.2 = EACCES ∨
     (inotifytools_watch_recursively_with_exclude path fs excl ws).2.2 = ENOENT ∨
     (inotifytools_watch_recursively_with_exclude path fs excl ws).2.2 = ELOOP) := by
  intro fs
  induction fs with
  | file =>
    intro _ path excl ws
    exact Or.inl rfl
  | statErr e =>
    intro htol path excl ws
    have he : e = EACCES := by simpa [tolerableFS] using htol
    exact Or.inr (Or.inl he)
  | openErr e =>
    intro htol path excl ws
    by_cases he : e = ENOTDIR
    · left
      simp only [inotifytools_watch_recursively_with_exclude]
      rw [if_pos he]
    · right
      have htol2 : e = ENOTDIR ∨ e = EACCES ∨ e = ENOENT ∨ e = ELOOP := by
        have h2 : ((e = ENOTDIR ∨ e = EACCES) ∨ e = ENOENT) ∨ e = ELOOP := by
          simpa [tolerableFS] using htol
        tauto
      simp only [inotifytools_watch_recursively_with_exclude]
      rw [if_neg he]
      rcases htol2 with h | h
      · exact absurd h he
      · exact h
  | dirNil =>
    intro _ path excl ws
    exact Or.inl rfl
  | dirCons name child rest ihc ihr =>
    intro htol path excl ws
    have htolc : tolerableFS child = true := by
      have := htol
      simp only [tolerableFS, Bool.and_eq_true] at this
      exact this.1
    have htolr : tolerableFS rest = true := by
      have := htol
      simp only [tolerableFS, Bool.and_eq_true] at this
      exact this.2
    simp only [inotifytools_watch_recursively_with_exclude]
    by_cases hn : name = s2l "." ∨ name = s2l ".."
    · rw [if_pos hn]
      exact ihr htolr path excl ws
    · rw [if_neg hn]
      rcases hse : statErrno child with _ | e
      · dsimp only
        by_cases hl : isLeaf child = true
        · rw [if_pos hl]
          exact ihr htolr path excl ws
        · rw [if_neg hl]
          by_cases hx : excludedDir excl (ensureSlash path ++ name ++ ['/']) = true
          · rw [if_pos hx]
            exact ihr htolr path excl ws
          · rw [if_neg hx]
            have hch := ihc htolc (ensureSlash path ++ name ++ ['/']) excl ws
            rcases hWeq : inotifytools_watch_recursively_with_exclude
                (ensureSlash path ++ name ++ ['/']) child excl ws with ⟨w2, ok, e⟩
            rw [hWeq] at hch
            cases ok
            · dsimp only
              dsimp only at hch
              have htole : e = EACCES ∨ e = ENOENT ∨ e = ELOOP := by
                rcases hch with h | h
                · exact absurd h (by simp)
                · exact h
              rw [if_pos htole]
              exact ihr htolr path excl w2
            · dsimp only
              exact ihr htolr path excl w2
      · have hc : child = FS.statErr e := statErrno_eq_some hse
        have he : e = EACCES := by
          rw [hc] at htolc
          simpa [tolerableFS] using htolc
        dsimp only
        rw [if_pos he]
        exact ihr htolr path excl ws

/-- On a well-formed directory whose subtree only produces tolerable
errors, the walk succeeds (returns the C 1). -/
lemma walk_chain_success : ∀ fs, isChain fs = true → tolerableFS fs = true →
    ∀ (path : List Char) (excl ws : List (List Char)),
    (inotifytools_watch_recursively_with_exclude path fs excl ws).2.1 = true := by
  intro fs
  induction fs with
  | file => intro hch; simp [isChain] at hch
  | statErr e => intro hch; simp [isChain] at hch
  | openErr e => intro hch; simp [isChain] at hch
  | dirNil =>
    intro _ _ path excl ws
    rfl
  | dirCons name child rest ihc ihr =>
    intro hch htol path excl ws
    have hchr : isChain rest = true := by simpa [isChain] using hch
    have htolc : tolerableFS child = true := by
      have := htol
      simp only [tolerableFS, Bool.and_eq_true] at this
      exact this.1
    have htolr : tolerableFS rest = true := by
      have := htol
      simp only [tolerableFS, Bool.and_eq_true] at this
      exact this.2
    simp only [inotifytools_watch_recursively_with_exclude]
    by_cases hn : name = s2l "." ∨ name = s2l ".."
    · rw [if_pos hn]
      exact ihr hchr htolr path excl ws
    · rw [if_neg hn]
      rcases hse : statErrno child with _ | e
      · dsimp only
        by_cases hl : isLeaf child = true
        · rw [if_pos hl]
          exact ihr hchr htolr path excl ws
        · rw [if_neg hl]
          by_cases hx : excludedDir excl (ensureSlash path ++ name ++ ['/']) = true
          · rw [if_pos hx]
            exact ihr hchr htolr path excl ws
          · rw [if_neg hx]
            have hch2 := walk_tolerable child htolc
                (ensureSlash path ++ name ++ ['/']) excl ws
            rcases hWeq : inotifytools_watch_recursively_with_exclude
                (ensureSlash path ++ name ++ ['/']) child excl ws with ⟨w2, ok, e⟩
            rw [hWeq] at hch2
            cases ok
            · dsimp only
              dsimp only at hch2
              have htole : e = EACCES ∨ e = ENOENT ∨ e = ELOOP := by
                rcases hch2 with h | h
                · exact absurd h (by simp)
                · exact h
              rw [if_pos htole]
              exact ihr hchr htolr path excl w2
            · dsimp only
              exact ihr hchr htolr path excl w2
      · have hc : child = FS.statErr e := statErrno_eq_some hse
        have he : e = EACCES := by
          rw [hc] at htolc
          simpa [tolerableFS] using htolc
        dsimp only
        rw [if_pos he]
        exact ihr hchr htolr path excl ws

/-- C8 (amended): (i) watches established earlier in the call are
never removed — the result list always extends the accumulator
(partial success); (ii) when every error the subtree produces is
tolerable (lstat64 failures limited to EACCES, opendir failures to
ENOTDIR/EACCES/ENOENT/ELOOP) the call still returns 1; (iii) the
original claim fails for entries: an lstat64 failure on a directory
entry with any errno other than EACCES — including ENOENT and ELOOP,
which the claim says are swallowed — aborts the entire call
immediately with return 0, keeping the watches established so far.
Only failures of the recursive descent into a subdirectory tolerate
all three of EACCES, ENOENT and ELOOP. -/
theorem C8_error_tolerance_amended :
    (∀ (fs : FS) (path : List Char) (excl ws : List (List Char)),
      ∃ t, (inotifytools_watch_recursively_with_exclude path fs excl ws).1 = ws ++ t) ∧
    (∀ fs, isChain fs = true → tolerableFS fs = true →
      ∀ (path : List Char) (excl ws : List (List Char)),
      (inotifytools_watch_recursively_with_exclude path fs excl ws).2.1 = true) ∧
    (∀ (name : List Char) (e : Nat) (rest : FS)
        (path : List Char) (excl ws : List (List Char)),
      ¬(name = s2l "." ∨ name = s2l "..") → e ≠ EACCES →
      inotifytools_watch_recursively_with_exclude path
        (FS.dirCons name (FS.statErr e) rest) excl ws = (ws, false, e)) := by
  refine ⟨walk_monotone, walk_chain_success, ?_⟩
  intro name e rest path excl ws hn he
  simp only [inotifytools_watch_recursively_with_exclude, statErrno]
  rw [if_neg hn]
  rw [if_neg he]

/-- A directory with a permission-denied entry, an excluded
subdirectory and an ordinary subdirectory. -/
def c8tree : FS :=
  FS.dirCons (s2l "a") (FS.dirCons (s2l "p") (FS.statErr EACCES) FS.dirNil)
    (FS.dirCons (s2l "b") FS.dirNil FS.dirNil)

/-- C8 witness: on a tree whose only failure is an EACCES lstat64
inside subdirectory a, with root/b excluded, the call succeeds, the
watch list extends the (empty) accumulator — concretely it watches
root/a/ and root/ but not root/b/ — and a directory entry x whose
lstat64 fails with ENOENT aborts the call keeping prior watches. -/
theorem C8_error_tolerance_witness :
    (inotifytools_watch_recursively_with_exclude (s2l "root") c8tree
        [s2l "root/b"] []).2.1 = true ∧
    (∃ t, (inotifytools_watch_recursively_with_exclude (s2l "root") c8tree
        [s2l "root/b"] []).1 = [] ++ t) ∧
    inotifytools_watch_recursively_with_exclude (s2l "root")
        (FS.dirCons (s2l "x") (FS.statErr ENOENT) FS.dirNil) [] [s2l "pre"]
      = ([s2l "pre"], false, ENOENT) ∧
    inotifytools_watch_recursively_with_exclude (s2l "root") c8tree [s2l "root/b"] []
      = ([s2l "root/a/", s2l "root/"], true, 0) :=
  ⟨C8_error_tolerance_amended.2.1 c8tree (by decide) (by decide)
     (s2l "root") [s2l "root/b"] [],
   C8_error_tolerance_amended.1 c8tree (s2l "root") [s2l "root/b"] [],
   C8_error_tolerance_amended.2.2 (s2l "x") ENOENT FS.dirNil (s2l "root") [] [s2l "pre"]
     (by decide) (by decide),
   by decide⟩

/-- C8 counterexample to the original claim: an entry x whose lstat64
fails with ENOENT — a class the claim says is swallowed — aborts the
whole call with return 0 and error ENOENT, whereas the same tree with
EACCES is swallowed and the call returns 1 having watched the
directory. -/
theorem C8_error_tolerance_counterexample :
    inotifytools_watch_recursively_with_exclude (s2l "root")
      (FS.dirCons (s2l "x") (FS.statErr ENOENT) FS.dirNil) [] []
      = ([], false, ENOENT) ∧
    inotifytools_watch_recursively_with_exclude (s2l "root")
      (FS.dirCons (s2l "x") (FS.statErr EACCES) FS.dirNil) [] []
      = ([s2l "root/"], true, 0) := by
  decide
